import Mathlib

/-!
# pika-brenchmark: workload driver and latency histogram

A shallow embedding of `main.go`, `set.go` and `zset.go`.

Modelling conventions.

* Go `int`/`int64` values are Lean `Int`; `int` has 64 bits.  The counters of the
  histogram (`spendCounter[index]++`, `slowRequestCount++`) and the running `sum` of
  `reportResult` grow without a bound of their own, so their additions wrap as in Go:
  `wrapInt`.  The other sums (`offset += partSize`, `offset + i`, differences of clock
  readings) stay between values that already are machine integers.
* Go's `/` on integers truncates toward zero: `Int.tdiv`.  Division by zero and an
  out-of-range slice index are run-time panics: `none`.
* The package-level variables `spendCounter` and `slowRequestCount` are the fields
  of `Histogram`, passed explicitly.  `spendCounterInc` runs entirely under
  `spendCounterLock`, so one call is one atomic step on a `Histogram`.
* The clock (`time.Now().UnixNano()`), the store (`c.Do`) and the goroutine
  scheduler are the environment: they are parameters of the definitions.
-/

namespace PikaBenchmark

/-! ## The histogram (`main.go`, lines 18-24 and 80-89) -/

/-- The two package-level variables of `main.go` that hold the latency counts. -/
structure Histogram where
  /-- The slice `spendCounter`: one counter per whole millisecond. -/
  spendCounter : List Int
  /-- The variable `slowRequestCount`: requests that took `len(spendCounter)` ms or more. -/
  slowRequestCount : Int
deriving DecidableEq, Repr

/-- The values the variables are initialised with: `make([]int, 2000)` and `0`. -/
def Histogram.initial : Histogram :=
  { spendCounter := List.replicate 2000 0, slowRequestCount := 0 }

/-- Sum of all buckets plus the overflow counter. -/
def Histogram.total (h : Histogram) : Int :=
  h.spendCounter.sum + h.slowRequestCount

/-- The largest Go `int`, `2^63 - 1`. -/
def maxInt : Int := 9223372036854775807

/-- The smallest Go `int`, `-2^63`. -/
def minInt : Int := -9223372036854775808

/-- The result of an `int` addition as Go stores it: reduced to 64 bits, two's
complement, so `maxInt + 1` becomes `-2^63`. -/
def wrapInt (x : Int) : Int :=
  (x + 9223372036854775808) % 18446744073709551616 - 9223372036854775808

/-- No counter of the histogram is negative. -/
def Histogram.NonNeg (h : Histogram) : Prop :=
  (∀ c ∈ h.spendCounter, 0 ≤ c) ∧ 0 ≤ h.slowRequestCount

/-- The function `spendCounterInc(index)`.  The comparison is against `len(spendCounter)`;
a negative index passes it and then indexes the slice out of range, which panics.  Both
increments are `int` additions. -/
def spendCounterInc (h : Histogram) (index : Int) : Option Histogram :=
  if index ≥ (h.spendCounter.length : Int) then
    some { h with slowRequestCount := wrapInt (h.slowRequestCount + 1) }
  else if index < 0 then
    none
  else
    some { h with
      spendCounter :=
        h.spendCounter.set index.toNat (wrapInt (h.spendCounter.getD index.toNat 0 + 1)) }

/-- A sequence of `spendCounterInc` calls, in the order in which they take the lock. -/
def recordAll (h : Histogram) : List Int → Option Histogram
  | [] => some h
  | index :: rest => (spendCounterInc h index).bind fun h' => recordAll h' rest

/-! ## Flags and formatting (`main.go`, lines 27-42) -/

/-- The command-line flags the driver reads (`-t`, `-n`, `-c`, `-k`). -/
structure Flags where
  opType : String
  requestNum : Int
  concurrentCount : Int
  key : String
deriving DecidableEq, Repr

/-- The verb `%d` of `fmt.Sprintf` on an `int`: decimal digits, `-` in front of a
negative number. -/
def fmtD (n : Int) : String :=
  if n < 0 then "-" ++ Nat.repr n.natAbs else Nat.repr n.toNat

/-- Integer division of Go: truncating, and a panic on a zero divisor. -/
def goDiv (a b : Int) : Option Int :=
  if b = 0 then none else some (Int.tdiv a b)

/-! ## Workers (`set.go`, `zset.go`, and `action` of `main.go`) -/

def opSadd : String := "sadd"
def opSrem : String := "srem"
def opSismember : String := "sismember"
def opZadd : String := "zadd"
def opZrem : String := "zrem"
def opZrank : String := "zrank"
def opZscore : String := "zscore"

/-- An argument handed to `c.Do`: an `interface{}` holding a string or an int. -/
inductive Arg where
  | str (s : String)
  | int (n : Int)
deriving DecidableEq, Repr

/-- One call `c.Do(name, args...)`. -/
structure Command where
  name : String
  args : List Arg
deriving DecidableEq, Repr

/-- The call `action(c, args...)`: it sends `c.Do(*opType, args...)`. -/
def action (f : Flags) (args : List Arg) : Command :=
  { name := f.opType, args := args }

/-- What one pass through the loop body of a worker does: the member it builds, the
command it sends (if any), and the whole milliseconds it then hands to
`spendCounterInc`. -/
structure Iteration where
  member : String
  command : Option Command
  spend : Int
deriving DecidableEq, Repr

/-- Loop body of `stressSet` for loop variable `i`.  `clock n` is the pair of
`time.Now().UnixNano()` readings taken around the request with logical index `n`. -/
def stressSetBody (f : Flags) (clock : Int → Int × Int) (offset : Int) (i : Nat) :
    Iteration :=
  let member := f.key ++ fmtD (offset + i)
  let start := (clock (offset + i)).1
  let stop := (clock (offset + i)).2
  { member := member
    command :=
      if f.opType = opSadd ∨ f.opType = opSrem ∨ f.opType = opSismember then
        some (action f [Arg.str f.key, Arg.str member])
      else none
    spend := Int.tdiv (stop - start) 1000000 }

/-- The function `stressSet(c, offset, count)`: the body for `i = 0, 1, ..., count - 1`. -/
def stressSet (f : Flags) (clock : Int → Int × Int) (offset count : Int) :
    List Iteration :=
  (List.range count.toNat).map (stressSetBody f clock offset)

/-- Loop body of `stressZset` for loop variable `i`. -/
def stressZsetBody (f : Flags) (clock : Int → Int × Int) (offset : Int) (i : Nat) :
    Iteration :=
  let member := f.key ++ fmtD (offset + i)
  let start := (clock (offset + i)).1
  let stop := (clock (offset + i)).2
  { member := member
    command :=
      if f.opType = opZadd then
        some (action f [Arg.str f.key, Arg.int (offset + i), Arg.str member])
      else if f.opType = opZrank ∨ f.opType = opZrem then
        some (action f [Arg.str f.key, Arg.str member])
      else none
    spend := Int.tdiv (stop - start) 1000000 }

/-- The function `stressZset(c, offset, count)`.  No call of it exists in the program. -/
def stressZset (f : Flags) (clock : Int → Int × Int) (offset count : Int) :
    List Iteration :=
  (List.range count.toNat).map (stressZsetBody f clock offset)

/-! ## Dispatch (`main`, lines 57-67) -/

/-- The `for` loop of `main`: the `(offset, partSize)` arguments of the successive
`go stressSet(connPool.Get(), offset, partSize)` statements, with `n` passes left. -/
def launchLoop (partSize : Int) : Nat → Int → List (Int × Int)
  | 0, _ => []
  | n + 1, offset => (offset, partSize) :: launchLoop partSize n (offset + partSize)

/-- The arguments `main` launches its goroutines with, in launch order. -/
def partitions (f : Flags) : Option (List (Int × Int)) :=
  (goDiv f.requestNum f.concurrentCount).map fun partSize =>
    launchLoop partSize f.concurrentCount.toNat 0

/-- The goroutines of one run: `main` starts `stressSet` for every partition. -/
def mainWorkers (f : Flags) (clock : Int → Int × Int) : Option (List (List Iteration)) :=
  (partitions f).map fun ps => ps.map fun p => stressSet f clock p.1 p.2

/-- The half-open range `[offset, offset + count)` of logical indices. -/
def inRange (p : Int × Int) (n : Int) : Prop :=
  p.1 ≤ n ∧ n < p.1 + p.2

instance (p : Int × Int) (n : Int) : Decidable (inRange p n) := by
  unfold inRange
  infer_instance

/-- No logical index lies in two of the ranges. -/
def NonOverlapping (ps : List (Int × Int)) : Prop :=
  ps.Pairwise fun p q => ∀ n, ¬(inRange p n ∧ inRange q n)

/-- Every range ends where the next one starts. -/
def Contiguous (ps : List (Int × Int)) : Prop :=
  ps.Chain' fun p q => p.1 + p.2 = q.1

/-- The logical indices that lie in some range are exactly those of `[0, total)`. -/
def CoversExactly (ps : List (Int × Int)) (total : Int) : Prop :=
  ∀ n, (∃ p ∈ ps, inRange p n) ↔ (0 ≤ n ∧ n < total)

/-- The member identifiers built in a run, goroutine after goroutine. -/
def runMembers (ws : List (List Iteration)) : List String :=
  ws.flatten.map Iteration.member

/-! ## Interleaved execution -/

/-- The steps of a goroutine that touch something shared. -/
inductive Step where
  /-- The call `c.Do` inside `action`; it panics when the store reports an error. -/
  | send (cmd : Command)
  /-- The call `spendCounterInc(index)`, atomic under `spendCounterLock`. -/
  | inc (index : Int)
deriving DecidableEq, Repr

/-- The steps of one loop pass, in program order. -/
def Iteration.steps (it : Iteration) : List Step :=
  (it.command.toList.map Step.send) ++ [Step.inc it.spend]

/-- The steps of a goroutine, in program order. -/
def workerSteps (its : List Iteration) : List Step :=
  its.flatMap Iteration.steps

/-- A run in progress: the histogram, what each goroutine has left to do, and the
commands sent so far. -/
structure RunState where
  hist : Histogram
  workers : List (List Step)
  sent : List Command
deriving DecidableEq, Repr

/-- Goroutine `k` performs its next step.  `store cmd` tells whether the store
answers `cmd` without an error.  A goroutine that has returned does nothing. -/
def stepWorker (store : Command → Bool) (s : RunState) (k : Nat) : Option RunState :=
  match s.workers.getD k [] with
  | [] => some s
  | Step.send cmd :: rest =>
    if store cmd then
      some { s with workers := s.workers.set k rest, sent := s.sent ++ [cmd] }
    else none
  | Step.inc index :: rest =>
    (spendCounterInc s.hist index).map fun h =>
      { s with hist := h, workers := s.workers.set k rest }

/-- A schedule names the goroutine that moves next, step after step. -/
def runSchedule (store : Command → Bool) (s : RunState) : List Nat → Option RunState
  | [] => some s
  | k :: ks => (stepWorker store s k).bind fun s' => runSchedule store s' ks

/-- The condition under which `wg.Wait()` returns: every goroutine has returned. -/
def RunState.finished (s : RunState) : Bool :=
  s.workers.all List.isEmpty

/-- The state in which `main` starts its goroutines. -/
def mainStart (f : Flags) (clock : Int → Int × Int) : Option RunState :=
  (mainWorkers f clock).map fun ws =>
    { hist := Histogram.initial, workers := ws.map workerSteps, sent := [] }

/-- The run of `main` up to `wg.Wait()` under a schedule. -/
def mainRun (f : Flags) (clock : Int → Int × Int) (store : Command → Bool)
    (schedule : List Nat) : Option RunState :=
  (mainStart f clock).bind fun s => runSchedule store s schedule

/-- Whether a step is a `spendCounterInc` call. -/
def Step.isInc : Step → Bool
  | Step.inc _ => true
  | Step.send _ => false

/-- The number of `spendCounterInc` calls among the steps of a goroutine. -/
def incCount (w : List Step) : Int :=
  ((w.filter Step.isInc).length : Int)

/-- The `spendCounterInc` calls the goroutines of a run still have ahead. -/
def RunState.pending (s : RunState) : Int :=
  (s.workers.map incCount).sum

/-- The steps the goroutines of a run still have ahead. -/
def RunState.remaining (s : RunState) : Int :=
  (s.workers.map fun w => (w.length : Int)).sum

/-- No counter is negative, and the calls made so far together with those still ahead do
not exceed `maxInt`. -/
def RunState.Inv (s : RunState) : Prop :=
  s.hist.NonNeg ∧ s.hist.total + s.pending ≤ maxInt

/-- Every `spendCounterInc` call still ahead has a non-negative argument. -/
def RunState.Safe (s : RunState) : Prop :=
  ∀ w ∈ s.workers, ∀ index, Step.inc index ∈ w → 0 ≤ index

/-! ## The report (`reportResult`, and `main`, lines 61-69) -/

/-- The value `main` passes to `reportResult`: the difference of the two clock
readings around the run, in nanoseconds, divided by `1e9`. -/
def elapsedSeconds (t0 t1 : Int) : Int :=
  Int.tdiv (t1 - t0) 1000000000

/-- The `qps` of `reportResult`, lines 102-107. -/
def qps (requestNum totalSpendSecond : Int) : Option Int :=
  if totalSpendSecond > 0 then goDiv requestNum totalSpendSecond
  else some requestNum

/-- The two numbers a percentile line is printed from: the loop variable `i` and the
running `sum`. -/
structure Line where
  latency : Nat
  cumulative : Int
deriving DecidableEq, Repr

/-- The percentage of a line, `100 * (sum / requestNum)`, as an exact rational (the
program evaluates it in `float64` and prints two decimals). -/
def Line.percent (requestNum : Int) (l : Line) : ℚ :=
  100 * ((l.cumulative : ℚ) / (requestNum : ℚ))

/-- The loop of `reportResult`, lines 120-133, at loop variable `i` with the buckets
`spendCounter[i:]` still ahead and the running `sum`; `sum += spendCounter[i]` is an `int`
addition. -/
def percentileLoop (requestNum : Int) : List Int → Nat → Int → List Line
  | [], _, _ => []
  | c :: rest, i, sum =>
    if sum ≥ requestNum then []
    else if c = 0 then percentileLoop requestNum rest (i + 1) sum
    else
      { latency := i, cumulative := wrapInt (sum + c) } ::
        percentileLoop requestNum rest (i + 1) (wrapInt (sum + c))

/-- The loop of `percentileLoop` with the running sum kept in unbounded integers.  It is
a device of the proofs: `percentileLoop_eq_exact` shows that the two agree while the
sum stays below `2^63`. -/
def percentileLoopExact (requestNum : Int) : List Int → Nat → Int → List Line
  | [], _, _ => []
  | c :: rest, i, sum =>
    if sum ≥ requestNum then []
    else if c = 0 then percentileLoopExact requestNum rest (i + 1) sum
    else
      { latency := i, cumulative := sum + c } ::
        percentileLoopExact requestNum rest (i + 1) (sum + c)

/-- The percentile lines `reportResult` prints for a histogram. -/
def percentileLines (requestNum : Int) (h : Histogram) : List Line :=
  percentileLoop requestNum h.spendCounter 0 0

/-- The percentile lines in the words of the specification: going through the buckets in
increasing order, one line for every bucket `i` with a non-zero count whose preceding buckets
sum to less than `requestNum`, showing `i` and the sum of the buckets `0..i`. -/
def percentileSpec (requestNum : Int) (buckets : List Int) : List Line :=
  (List.range buckets.length).filterMap fun i =>
    if buckets.getD i 0 ≠ 0 ∧ (buckets.take i).sum < requestNum then
      some { latency := i, cumulative := (buckets.take (i + 1)).sum }
    else none

/-- A histogram with three recorded latencies below 2000 ms and one above. -/
def sampleHistogram : Histogram :=
  { spendCounter := [2, 0, 1] ++ List.replicate 1997 0, slowRequestCount := 1 }

/-- A histogram whose first three buckets sum to more than `maxInt`. -/
def wrapHistogram : Histogram :=
  { spendCounter := [9223372036854775806, 2, 1] ++ List.replicate 1997 0
    slowRequestCount := 0 }

/-- A histogram whose bucket 0 and whose `slowRequestCount` hold `maxInt`. -/
def fullHistogram : Histogram :=
  { spendCounter := 9223372036854775807 :: List.replicate 1999 0
    slowRequestCount := 9223372036854775807 }

/-- What `reportResult` prints: the four title lines and the percentile lines. -/
structure Report where
  titles : List String
  lines : List Line
deriving DecidableEq, Repr

/-- The function `reportResult(totalSpendSecond)`. -/
def reportResult (f : Flags) (h : Histogram) (totalSpendSecond : Int) : Option Report :=
  (qps f.requestNum totalSpendSecond).map fun q =>
    { titles :=
        [ "================== " ++ f.opType ++ " =================",
          fmtD f.requestNum ++ " requests completed in " ++ fmtD totalSpendSecond ++
            " seconds",
          fmtD f.concurrentCount ++ " parallel clients",
          fmtD q ++ " query pre seconds" ]
      lines := percentileLines f.requestNum h }

/-- The steps by which the cumulative count grows from one printed line to the next,
the first one counted from zero. -/
def increments : Int → List Line → List Int
  | _, [] => []
  | prev, l :: ls => (l.cumulative - prev) :: increments l.cumulative ls

/-! ## Facts about one `spendCounterInc` call -/

theorem wrapInt_of_range (x : Int) (h1 : -9223372036854775808 ≤ x)
    (h2 : x < 9223372036854775808) : wrapInt x = x := by
  unfold wrapInt
  omega

theorem spendCounterInc_of_ge (h : Histogram) (index : Int)
    (hge : (h.spendCounter.length : Int) ≤ index) :
    spendCounterInc h index =
      some { h with slowRequestCount := wrapInt (h.slowRequestCount + 1) } := by
  unfold spendCounterInc
  rw [if_pos hge]

theorem spendCounterInc_of_lt (h : Histogram) (index : Int) (h0 : 0 ≤ index)
    (hlt : index < (h.spendCounter.length : Int)) :
    spendCounterInc h index =
      some { h with
        spendCounter :=
          h.spendCounter.set index.toNat
            (wrapInt (h.spendCounter.getD index.toNat 0 + 1)) } := by
  unfold spendCounterInc
  rw [if_neg (not_le.mpr hlt), if_neg (not_lt.mpr h0)]

theorem spendCounterInc_isSome (h : Histogram) (index : Int) (h0 : 0 ≤ index) :
    ∃ h', spendCounterInc h index = some h' := by
  by_cases hge : (h.spendCounter.length : Int) ≤ index
  · exact ⟨_, spendCounterInc_of_ge h index hge⟩
  · exact ⟨_, spendCounterInc_of_lt h index h0 (not_le.mp hge)⟩

theorem spendCounterInc_length (h h' : Histogram) (index : Int)
    (hs : spendCounterInc h index = some h') :
    h'.spendCounter.length = h.spendCounter.length := by
  unfold spendCounterInc at hs
  split_ifs at hs
  · cases hs; rfl
  · cases hs; simp

theorem sum_set_getD_succ (l : List Int) (n : Nat) (hn : n < l.length) :
    (l.set n (l.getD n 0 + 1)).sum = l.sum + 1 := by
  rw [List.sum_set', dif_pos hn, List.getD_eq_getElem l 0 hn]
  ring

theorem getD_le_sum (l : List Int) (hnn : ∀ c ∈ l, 0 ≤ c) (n : Nat) :
    0 ≤ l.getD n 0 ∧ l.getD n 0 ≤ l.sum := by
  by_cases hn : n < l.length
  · rw [List.getD_eq_getElem l 0 hn]
    exact ⟨hnn _ (List.getElem_mem hn), List.single_le_sum hnn _ (List.getElem_mem hn)⟩
  · rw [List.getD_eq_getElem?_getD, List.getElem?_eq_none (not_lt.mp hn)]
    exact ⟨le_refl _, List.sum_nonneg hnn⟩

theorem spendCounterInc_exact (h h' : Histogram) (index : Int) (hnn : h.NonNeg)
    (hb : h.total < maxInt) (hs : spendCounterInc h index = some h') :
    ((h.spendCounter.length : Int) ≤ index ∧
        h' = { h with slowRequestCount := h.slowRequestCount + 1 }) ∨
      (index.toNat < h.spendCounter.length ∧
        h' = { h with
          spendCounter :=
            h.spendCounter.set index.toNat (h.spendCounter.getD index.toNat 0 + 1) }) := by
  obtain ⟨hbuckets, hslow⟩ := hnn
  have hsum : 0 ≤ h.spendCounter.sum := List.sum_nonneg hbuckets
  unfold Histogram.total maxInt at hb
  unfold spendCounterInc at hs
  split_ifs at hs with hge hneg
  · left
    cases hs
    rw [wrapInt_of_range _ (by omega) (by omega)]
    exact ⟨hge, rfl⟩
  · right
    cases hs
    obtain ⟨g0, g1⟩ := getD_le_sum h.spendCounter hbuckets index.toNat
    rw [wrapInt_of_range _ (by omega) (by omega)]
    exact ⟨by omega, rfl⟩

theorem spendCounterInc_total (h h' : Histogram) (index : Int) (hnn : h.NonNeg)
    (hb : h.total < maxInt) (hs : spendCounterInc h index = some h') :
    h'.total = h.total + 1 ∧ h'.NonNeg ∧
      (∀ j, h.spendCounter.getD j 0 ≤ h'.spendCounter.getD j 0) ∧
      h.slowRequestCount ≤ h'.slowRequestCount := by
  rcases spendCounterInc_exact h h' index hnn hb hs with ⟨_, rfl⟩ | ⟨hn, rfl⟩
  · refine ⟨?_, ⟨hnn.1, ?_⟩, fun j => le_refl _, ?_⟩
    · simp only [Histogram.total]
      ring
    · have := hnn.2
      simp only
      omega
    · simp
  · obtain ⟨g0, _⟩ := getD_le_sum h.spendCounter hnn.1 index.toNat
    refine ⟨?_, ⟨?_, hnn.2⟩, ?_, le_refl _⟩
    · simp only [Histogram.total, sum_set_getD_succ _ _ hn]
      ring
    · intro c hc
      rcases List.mem_or_eq_of_mem_set hc with hc' | rfl
      · exact hnn.1 c hc'
      · omega
    · intro j
      simp only [List.getD_eq_getElem?_getD, List.getElem?_set]
      by_cases hj : index.toNat = j
      · subst hj
        simp [hn]
      · simp [hj]

/-! ## Facts about sequences of `spendCounterInc` calls -/

theorem initial_length : Histogram.initial.spendCounter.length = 2000 :=
  List.length_replicate 2000 (0 : Int)

theorem initial_total : Histogram.initial.total = 0 := by
  show (List.replicate 2000 (0 : Int)).sum + 0 = 0
  rw [List.sum_replicate, smul_zero, add_zero]

theorem initial_nonNeg : Histogram.initial.NonNeg :=
  ⟨fun c hc => by rw [List.eq_of_mem_replicate hc], le_refl _⟩

theorem recordAll_append (h : Histogram) (xs ys : List Int) :
    recordAll h (xs ++ ys) = (recordAll h xs).bind fun h' => recordAll h' ys := by
  induction xs generalizing h with
  | nil => rfl
  | cons x xs ih =>
    simp only [List.cons_append, recordAll]
    cases spendCounterInc h x with
    | none => rfl
    | some h1 => simpa using ih h1

theorem recordAll_total (h : Histogram) (calls : List Int) (hnn : h.NonNeg)
    (hcalls : ∀ c ∈ calls, 0 ≤ c) (hb : h.total + (calls.length : Int) ≤ maxInt) :
    ∃ h', recordAll h calls = some h' ∧ h'.total = h.total + calls.length ∧
      h'.NonNeg ∧ h'.spendCounter.length = h.spendCounter.length := by
  induction calls generalizing h with
  | nil => exact ⟨h, rfl, by simp, hnn, rfl⟩
  | cons c cs ih =>
    simp only [List.length_cons] at hb
    push_cast at hb
    obtain ⟨h1, e1⟩ := spendCounterInc_isSome h c (hcalls c (List.mem_cons_self c cs))
    obtain ⟨t1, n1, _⟩ := spendCounterInc_total h h1 c hnn (by omega) e1
    obtain ⟨h2, e2, t2, n2, l2⟩ :=
      ih h1 n1 (fun d hd => hcalls d (List.mem_cons_of_mem c hd)) (by rw [t1]; omega)
    refine ⟨h2, by simp [recordAll, e1, e2], ?_, n2, ?_⟩
    · rw [t2, t1]
      simp only [List.length_cons]
      push_cast
      ring
    · rw [l2, spendCounterInc_length h h1 c e1]

/-! ## Facts about the dispatch loop -/

theorem launchLoop_eq_map (partSize : Int) (n : Nat) (offset : Int) :
    launchLoop partSize n offset =
      (List.range n).map fun (k : Nat) => (offset + (k : Int) * partSize, partSize) := by
  induction n generalizing offset with
  | zero => rfl
  | succ n ih =>
    rw [launchLoop, ih, List.range_succ_eq_map, List.map_cons, List.map_map]
    congr 1
    · simp
    · apply List.map_congr_left
      intro k _
      simp only [Function.comp_apply, Nat.succ_eq_add_one, Nat.cast_add, Nat.cast_one]
      congr 1
      ring

theorem partitions_eq (f : Flags) (hc : 0 < f.concurrentCount) :
    partitions f =
      some ((List.range f.concurrentCount.toNat).map fun (k : Nat) =>
        ((k : Int) * Int.tdiv f.requestNum f.concurrentCount,
          Int.tdiv f.requestNum f.concurrentCount)) := by
  unfold partitions goDiv
  rw [if_neg (ne_of_gt hc), Option.map_some', launchLoop_eq_map]
  simp

theorem tdiv_facts (n c : Int) (hn : 0 ≤ n) (hc : 0 < c) :
    0 ≤ Int.tdiv n c ∧ Int.tdiv n c * c ≤ n ∧ n - Int.tdiv n c * c = Int.tmod n c ∧
      Int.tmod n c = n % c ∧ Int.tdiv n c = n / c := by
  have e1 : Int.tdiv n c = n / c := Int.tdiv_eq_ediv hn (le_of_lt hc)
  have e2 : Int.tmod n c = n % c := Int.tmod_eq_emod hn (le_of_lt hc)
  have e3 := Int.ediv_add_emod n c
  have e4 := Int.emod_nonneg n (ne_of_gt hc)
  have e5 : 0 ≤ n / c := Int.ediv_nonneg hn (le_of_lt hc)
  rw [e1, e2]
  refine ⟨e5, ?_, ?_, rfl, rfl⟩
  · nlinarith
  · linarith [mul_comm c (n / c)]

theorem sum_map_const_snd (p : Int) (n : Nat) (g : Nat → Int) :
    (((List.range n).map fun (k : Nat) => (g k, p)).map Prod.snd).sum = p * n := by
  rw [List.map_map]
  have : (Prod.snd ∘ fun (k : Nat) => (g k, p)) = fun _ : Nat => p := rfl
  rw [this, List.map_const', List.sum_replicate, List.length_range]
  simp [mul_comm]

theorem nonOverlapping_map (p : Int) (n : Nat) (hp : 0 ≤ p) :
    NonOverlapping ((List.range n).map fun (k : Nat) => ((k : Int) * p, p)) := by
  unfold NonOverlapping
  rw [List.pairwise_map]
  refine (List.pairwise_lt_range n).imp ?_
  intro a b hab m hm
  obtain ⟨⟨_, h2⟩, ⟨h3, _⟩⟩ := hm
  simp only at h2 h3
  have hab' : (a : Int) + 1 ≤ b := by exact_mod_cast hab
  have : ((a : Int) + 1) * p ≤ (b : Int) * p := mul_le_mul_of_nonneg_right hab' hp
  linarith

theorem contiguous_map (p : Int) (n : Nat) :
    Contiguous ((List.range n).map fun (k : Nat) => ((k : Int) * p, p)) := by
  unfold Contiguous
  rw [List.chain'_map]
  cases n with
  | zero => simp
  | succ n =>
    rw [List.chain'_range_succ]
    intro m _
    push_cast
    ring

theorem coversExactly_map (p : Int) (n : Nat) (hp : 0 ≤ p) :
    CoversExactly ((List.range n).map fun (k : Nat) => ((k : Int) * p, p)) ((n : Int) * p) := by
  intro m
  constructor
  · rintro ⟨q, hq, h1, h2⟩
    obtain ⟨k, hk, rfl⟩ := List.mem_map.mp hq
    simp only at h1 h2
    have hk' : (k : Int) + 1 ≤ n := by exact_mod_cast List.mem_range.mp hk
    have hk0 : (0 : Int) ≤ k := Int.natCast_nonneg k
    have : ((k : Int) + 1) * p ≤ (n : Int) * p := mul_le_mul_of_nonneg_right hk' hp
    constructor
    · nlinarith
    · linarith
  · rintro ⟨h0, h1⟩
    have hppos : 0 < p := by
      rcases lt_or_eq_of_le hp with h | h
      · exact h
      · rw [← h] at h1
        simp at h1
        omega
    have hq0 : 0 ≤ m / p := Int.ediv_nonneg h0 hp
    have hlo : m / p * p ≤ m := Int.ediv_mul_le m (ne_of_gt hppos)
    have hhi : m < (m / p + 1) * p := Int.lt_ediv_add_one_mul_self m hppos
    have hlt : m / p < n := by
      by_contra hcon
      have : (n : Int) * p ≤ m / p * p := mul_le_mul_of_nonneg_right (not_lt.mp hcon) hp
      linarith
    refine ⟨(((m / p).toNat : Nat) * p, p), ?_, ?_⟩
    · refine List.mem_map.mpr ⟨(m / p).toNat, List.mem_range.mpr ?_, rfl⟩
      omega
    · rw [Int.toNat_of_nonneg hq0]
      constructor
      · exact hlo
      · simp only
        linarith

/-! ## Facts about interleaved runs -/

theorem getD_eq_cons {ws : List (List Step)} {k : Nat} {x : Step} {rest : List Step}
    (h : ws.getD k [] = x :: rest) : ∃ hk : k < ws.length, ws[k] = x :: rest := by
  by_cases hk : k < ws.length
  · exact ⟨hk, by rw [List.getD_eq_getElem ws [] hk] at h; exact h⟩
  · rw [List.getD_eq_getElem?_getD, List.getElem?_eq_none (not_lt.mp hk)] at h
    cases h

theorem sum_map_set (g : List Step → Int) (ws : List (List Step)) (k : Nat)
    (hk : k < ws.length) (w : List Step) :
    ((ws.set k w).map g).sum = (ws.map g).sum - g ws[k] + g w := by
  rw [List.map_set, List.sum_set', dif_pos (by simpa using hk), List.getElem_map]
  ring

theorem stepWorker_cases (store : Command → Bool) (s s' : RunState) (k : Nat)
    (h : stepWorker store s k = some s') :
    (s.workers.getD k [] = [] ∧ s' = s) ∨
    (∃ cmd rest, s.workers.getD k [] = Step.send cmd :: rest ∧ store cmd = true ∧
      s' = { s with workers := s.workers.set k rest, sent := s.sent ++ [cmd] }) ∨
    (∃ index rest h', s.workers.getD k [] = Step.inc index :: rest ∧
      spendCounterInc s.hist index = some h' ∧
      s' = { s with hist := h', workers := s.workers.set k rest }) := by
  unfold stepWorker at h
  split at h
  · next e =>
    left
    exact ⟨e, by cases h; rfl⟩
  · next cmd rest e =>
    right; left
    split_ifs at h with hs
    cases h
    exact ⟨cmd, rest, e, hs, rfl⟩
  · next index rest e =>
    right; right
    cases e2 : spendCounterInc s.hist index with
    | none => simp [e2] at h
    | some h' =>
      rw [e2] at h
      cases h
      exact ⟨index, rest, h', e, e2, rfl⟩

theorem pending_nonneg (s : RunState) : 0 ≤ s.pending := by
  unfold RunState.pending
  apply List.sum_nonneg
  intro x hx
  obtain ⟨w, _, rfl⟩ := List.mem_map.mp hx
  exact Int.natCast_nonneg _

theorem stepWorker_safe (store : Command → Bool) (s s' : RunState) (k : Nat)
    (h : stepWorker store s k = some s') (hsafe : s.Safe) : s'.Safe := by
  rcases stepWorker_cases store s s' k h with ⟨_, rfl⟩ | ⟨cmd, rest, e, _, rfl⟩ |
    ⟨index, rest, h', e, e2, rfl⟩
  · exact hsafe
  · obtain ⟨hk, ek⟩ := getD_eq_cons e
    intro w hw index hin
    rcases List.mem_or_eq_of_mem_set hw with hw' | rfl
    · exact hsafe w hw' index hin
    · exact hsafe _ (List.getElem_mem hk) index (by rw [ek]; exact List.mem_cons_of_mem _ hin)
  · obtain ⟨hk, ek⟩ := getD_eq_cons e
    intro w hw index' hin
    rcases List.mem_or_eq_of_mem_set hw with hw' | rfl
    · exact hsafe w hw' index' hin
    · exact hsafe _ (List.getElem_mem hk) index' (by rw [ek]; exact List.mem_cons_of_mem _ hin)

theorem stepWorker_invariant (store : Command → Bool) (s s' : RunState) (k : Nat)
    (h : stepWorker store s k = some s') (hinv : s.Inv) :
    s'.hist.total + s'.pending = s.hist.total + s.pending ∧ s'.Inv := by
  rcases stepWorker_cases store s s' k h with ⟨_, rfl⟩ | ⟨cmd, rest, e, _, rfl⟩ |
    ⟨index, rest, h', e, e2, rfl⟩
  · exact ⟨rfl, hinv⟩
  · obtain ⟨hk, ek⟩ := getD_eq_cons e
    have hp : (RunState.pending
        { s with workers := s.workers.set k rest, sent := s.sent ++ [cmd] }) = s.pending := by
      simp only [RunState.pending, sum_map_set incCount s.workers k hk rest, ek]
      simp [incCount, Step.isInc]
    refine ⟨by rw [hp], hinv.1, ?_⟩
    rw [hp]
    exact hinv.2
  · obtain ⟨hk, ek⟩ := getD_eq_cons e
    have hp : (RunState.pending { s with hist := h', workers := s.workers.set k rest }) =
        s.pending - 1 := by
      simp only [RunState.pending, sum_map_set incCount s.workers k hk rest, ek]
      simp only [incCount, Step.isInc, List.filter_cons_of_pos, List.length_cons]
      push_cast
      ring
    have hnonneg := pending_nonneg { s with hist := h', workers := s.workers.set k rest }
    rw [hp] at hnonneg
    have hroom : s.hist.total < maxInt := by
      have := hinv.2
      omega
    obtain ⟨t, n, _⟩ := spendCounterInc_total s.hist h' index hinv.1 hroom e2
    refine ⟨?_, n, ?_⟩
    · rw [hp]
      simp only [t]
      ring
    · rw [hp]
      simp only [t]
      have := hinv.2
      omega

theorem runSchedule_invariant (store : Command → Bool) (s s' : RunState)
    (schedule : List Nat) (h : runSchedule store s schedule = some s') (hinv : s.Inv) :
    s'.hist.total + s'.pending = s.hist.total + s.pending := by
  induction schedule generalizing s with
  | nil =>
    simp only [runSchedule, Option.some.injEq] at h
    rw [h]
  | cons k ks ih =>
    simp only [runSchedule] at h
    cases e : stepWorker store s k with
    | none => simp [e] at h
    | some s1 =>
      rw [e] at h
      obtain ⟨t, i1⟩ := stepWorker_invariant store s s1 k e hinv
      rw [ih s1 h i1, t]

theorem pending_of_finished (s : RunState) (h : s.finished = true) : s.pending = 0 := by
  unfold RunState.finished at h
  rw [List.all_eq_true] at h
  unfold RunState.pending
  apply List.sum_eq_zero
  intro x hx
  obtain ⟨w, hw, rfl⟩ := List.mem_map.mp hx
  have := List.isEmpty_iff.mp (h w hw)
  subst this
  rfl

theorem stepWorker_isSome (store : Command → Bool) (hstore : ∀ cmd, store cmd = true)
    (s : RunState) (hsafe : s.Safe) (k : Nat) : ∃ s', stepWorker store s k = some s' := by
  unfold stepWorker
  split
  · exact ⟨s, rfl⟩
  · next cmd rest e => exact ⟨_, by rw [if_pos (hstore cmd)]⟩
  · next index rest e =>
    obtain ⟨hk, ek⟩ := getD_eq_cons e
    have h0 : 0 ≤ index :=
      hsafe _ (List.getElem_mem hk) index (by rw [ek]; exact List.mem_cons_self _ _)
    obtain ⟨h', e'⟩ := spendCounterInc_isSome s.hist index h0
    exact ⟨_, by rw [e']; rfl⟩

theorem runSchedule_isSome (store : Command → Bool) (hstore : ∀ cmd, store cmd = true)
    (s : RunState) (hsafe : s.Safe) (schedule : List Nat) :
    ∃ s', runSchedule store s schedule = some s' := by
  induction schedule generalizing s with
  | nil => exact ⟨s, rfl⟩
  | cons k ks ih =>
    obtain ⟨s1, e1⟩ := stepWorker_isSome store hstore s hsafe k
    obtain ⟨s2, e2⟩ := ih s1 (stepWorker_safe store s s1 k e1 hsafe)
    exact ⟨s2, by simp [runSchedule, e1, e2]⟩

theorem stepWorker_remaining (store : Command → Bool) (s s' : RunState) (k : Nat)
    (x : Step) (rest : List Step) (e : s.workers.getD k [] = x :: rest)
    (h : stepWorker store s k = some s') : s'.remaining = s.remaining - 1 := by
  obtain ⟨hk, ek⟩ := getD_eq_cons e
  rcases stepWorker_cases store s s' k h with ⟨e0, _⟩ | ⟨cmd, rest', e', _, rfl⟩ |
    ⟨index, rest', h', e', _, rfl⟩
  · rw [e] at e0
    cases e0
  · rw [e] at e'
    cases e'
    simp only [RunState.remaining, sum_map_set _ s.workers k hk rest, ek, List.length_cons]
    push_cast
    ring
  · rw [e] at e'
    cases e'
    simp only [RunState.remaining, sum_map_set _ s.workers k hk rest, ek, List.length_cons]
    push_cast
    ring

theorem exists_unfinished (s : RunState) (h : s.finished ≠ true) :
    ∃ k x rest, s.workers.getD k [] = x :: rest := by
  unfold RunState.finished at h
  rw [Ne, List.all_eq_true] at h
  push_neg at h
  obtain ⟨w, hw, hne⟩ := h
  obtain ⟨k, hk, rfl⟩ := List.mem_iff_getElem.mp hw
  cases e : s.workers[k] with
  | nil => rw [e] at hne; exact absurd rfl hne
  | cons x rest => exact ⟨k, x, rest, by rw [List.getD_eq_getElem _ _ hk, e]⟩

theorem exists_finishing_schedule (store : Command → Bool)
    (hstore : ∀ cmd, store cmd = true) (m : Nat) :
    ∀ s : RunState, s.Safe → s.remaining ≤ (m : Int) →
      ∃ schedule s', runSchedule store s schedule = some s' ∧ s'.finished = true := by
  induction m with
  | zero =>
    intro s _ hrem
    by_cases hf : s.finished = true
    · exact ⟨[], s, rfl, hf⟩
    · obtain ⟨k, x, rest, e⟩ := exists_unfinished s hf
      obtain ⟨hk, ek⟩ := getD_eq_cons e
      exfalso
      have hnn : ∀ y ∈ s.workers.map fun w => (w.length : Int), 0 ≤ y := by
        intro y hy
        obtain ⟨w, _, rfl⟩ := List.mem_map.mp hy
        exact Int.natCast_nonneg _
      have hle := List.single_le_sum hnn _
        (List.mem_map.mpr ⟨_, List.getElem_mem hk, rfl⟩)
      rw [ek] at hle
      simp only [RunState.remaining] at hrem
      simp only [List.length_cons] at hle
      push_cast at hle hrem
      omega
  | succ m ih =>
    intro s hsafe hrem
    by_cases hf : s.finished = true
    · exact ⟨[], s, rfl, hf⟩
    · obtain ⟨k, x, rest, e⟩ := exists_unfinished s hf
      obtain ⟨s1, e1⟩ := stepWorker_isSome store hstore s hsafe k
      have hr := stepWorker_remaining store s s1 k x rest e e1
      obtain ⟨schedule, s2, e2, hf2⟩ :=
        ih s1 (stepWorker_safe store s s1 k e1 hsafe) (by rw [hr]; push_cast at hrem; omega)
      exact ⟨k :: schedule, s2, by simp [runSchedule, e1, e2], hf2⟩

/-! ## Facts about the goroutines `main` starts -/

theorem incCount_steps (it : Iteration) : incCount it.steps = 1 := by
  unfold incCount Iteration.steps
  cases it.command <;> simp [Step.isInc]

theorem incCount_append (a b : List Step) : incCount (a ++ b) = incCount a + incCount b := by
  simp [incCount]

theorem incCount_workerSteps (its : List Iteration) :
    incCount (workerSteps its) = (its.length : Int) := by
  induction its with
  | nil => rfl
  | cons it its ih =>
    have ih' : incCount (its.flatMap Iteration.steps) = (its.length : Int) := ih
    simp only [workerSteps, List.flatMap_cons, incCount_append, incCount_steps, ih',
      List.length_cons]
    push_cast
    ring

theorem mem_workerSteps_inc (its : List Iteration) (index : Int)
    (h : Step.inc index ∈ workerSteps its) : ∃ it ∈ its, index = it.spend := by
  unfold workerSteps at h
  obtain ⟨it, hit, hin⟩ := List.mem_flatMap.mp h
  refine ⟨it, hit, ?_⟩
  unfold Iteration.steps at hin
  rcases List.mem_append.mp hin with h1 | h1
  · obtain ⟨c, _, hc⟩ := List.mem_map.mp h1
    cases hc
  · simpa using h1

theorem stressSet_length (f : Flags) (clock : Int → Int × Int) (offset count : Int) :
    (stressSet f clock offset count).length = count.toNat := by
  simp [stressSet]

theorem stressSet_spend_nonneg (f : Flags) (clock : Int → Int × Int)
    (hclock : ∀ n, (clock n).1 ≤ (clock n).2) (offset count : Int) :
    ∀ it ∈ stressSet f clock offset count, 0 ≤ it.spend := by
  intro it hit
  obtain ⟨i, _, rfl⟩ := List.mem_map.mp hit
  exact Int.tdiv_nonneg (sub_nonneg.mpr (hclock (offset + (i : Int)))) (by decide)

theorem mainWorkers_eq (f : Flags) (clock : Int → Int × Int) (hc : 0 < f.concurrentCount) :
    mainWorkers f clock =
      some ((List.range f.concurrentCount.toNat).map fun (k : Nat) =>
        stressSet f clock ((k : Int) * Int.tdiv f.requestNum f.concurrentCount)
          (Int.tdiv f.requestNum f.concurrentCount)) := by
  simp only [mainWorkers, partitions_eq f hc, Option.map_some', List.map_map]
  rfl

theorem mainStart_eq (f : Flags) (clock : Int → Int × Int) (hc : 0 < f.concurrentCount) :
    mainStart f clock =
      some
        { hist := Histogram.initial
          workers :=
            (List.range f.concurrentCount.toNat).map fun (k : Nat) =>
              workerSteps
                (stressSet f clock ((k : Int) * Int.tdiv f.requestNum f.concurrentCount)
                  (Int.tdiv f.requestNum f.concurrentCount))
          sent := [] } := by
  simp only [mainStart, mainWorkers, partitions_eq f hc, Option.map_some', List.map_map]
  rfl

theorem mainStart_pending (f : Flags) (clock : Int → Int × Int) (s : RunState)
    (hn : 0 ≤ f.requestNum) (hc : 0 < f.concurrentCount) (hs : mainStart f clock = some s) :
    s.hist = Histogram.initial ∧
      s.pending = f.concurrentCount * Int.tdiv f.requestNum f.concurrentCount := by
  rw [mainStart_eq f clock hc] at hs
  cases hs
  refine ⟨rfl, ?_⟩
  obtain ⟨t1, _⟩ := tdiv_facts f.requestNum f.concurrentCount hn hc
  simp only [RunState.pending, List.map_map]
  have hfun : (incCount ∘ fun (k : Nat) =>
      workerSteps
        (stressSet f clock ((k : Int) * Int.tdiv f.requestNum f.concurrentCount)
          (Int.tdiv f.requestNum f.concurrentCount))) =
      fun _ : Nat => Int.tdiv f.requestNum f.concurrentCount := by
    funext k
    simp only [Function.comp_apply, incCount_workerSteps, stressSet_length]
    exact Int.toNat_of_nonneg t1
  rw [hfun, List.map_const', List.sum_replicate, List.length_range, nsmul_eq_mul,
    Int.toNat_of_nonneg (le_of_lt hc)]

theorem mainStart_safe (f : Flags) (clock : Int → Int × Int)
    (hclock : ∀ n, (clock n).1 ≤ (clock n).2) (s : RunState)
    (hc : 0 < f.concurrentCount) (hs : mainStart f clock = some s) : s.Safe := by
  rw [mainStart_eq f clock hc] at hs
  cases hs
  intro w hw index hin
  obtain ⟨k, _, rfl⟩ := List.mem_map.mp hw
  obtain ⟨it, hit, rfl⟩ := mem_workerSteps_inc _ _ hin
  exact stressSet_spend_nonneg f clock hclock _ _ it hit

/-! ## Facts about the report -/

theorem sum_take_nonneg (l : List Int) (hnn : ∀ c ∈ l, 0 ≤ c) (k : Nat) :
    0 ≤ (l.take k).sum :=
  List.sum_nonneg fun c hc => hnn c (List.mem_of_mem_take hc)

theorem percentileLoopExact_eq_filterMap (requestNum : Int) (l : List Int)
    (hnn : ∀ c ∈ l, 0 ≤ c) (i0 : Nat) (s0 : Int) :
    percentileLoopExact requestNum l i0 s0 =
      (List.range l.length).filterMap fun k =>
        if l.getD k 0 ≠ 0 ∧ s0 + (l.take k).sum < requestNum then
          some { latency := i0 + k, cumulative := s0 + (l.take (k + 1)).sum }
        else none := by
  induction l generalizing i0 s0 with
  | nil => rfl
  | cons c rest ih =>
    have hrest : ∀ d ∈ rest, 0 ≤ d := fun d hd => hnn d (List.mem_cons_of_mem c hd)
    rw [percentileLoopExact]
    by_cases hbreak : s0 ≥ requestNum
    · rw [if_pos hbreak]
      symm
      rw [List.filterMap_eq_nil_iff]
      intro k _
      have := sum_take_nonneg (c :: rest) hnn k
      rw [if_neg]
      intro hcon
      linarith [hcon.2]
    · rw [if_neg hbreak]
      have htail : ∀ s1 : Int, s1 = s0 + c →
          percentileLoopExact requestNum rest (i0 + 1) s1 =
            (List.map Nat.succ (List.range rest.length)).filterMap fun k =>
              if (c :: rest).getD k 0 ≠ 0 ∧ s0 + ((c :: rest).take k).sum < requestNum then
                some { latency := i0 + k, cumulative := s0 + ((c :: rest).take (k + 1)).sum }
              else none := by
        intro s1 hs1
        rw [ih hrest, List.filterMap_map]
        apply List.filterMap_congr
        intro k _
        simp only [Function.comp_apply, Nat.succ_eq_add_one, List.getD_cons_succ,
          List.take_succ_cons, List.sum_cons, hs1]
        have e1 : s0 + c + (List.take k rest).sum = s0 + (c + (List.take k rest).sum) := by ring
        have e2 : s0 + c + (List.take (k + 1) rest).sum =
            s0 + (c + (List.take (k + 1) rest).sum) := by ring
        have e3 : i0 + 1 + k = i0 + (k + 1) := by ring
        rw [e1, e2, e3]
      simp only [List.length_cons, List.range_succ_eq_map, List.filterMap_cons,
        List.getD_cons_zero, List.take_zero, List.sum_nil, add_zero, Nat.add_zero,
        List.take_succ_cons, List.sum_cons]
      by_cases hc0 : c = 0
      · rw [if_pos hc0]
        have hcond : ¬(c ≠ 0 ∧ s0 < requestNum) := fun hcon => hcon.1 hc0
        rw [if_neg hcond]
        simpa using htail s0 (by rw [hc0, add_zero])
      · rw [if_neg hc0]
        have hcond : c ≠ 0 ∧ s0 < requestNum := ⟨hc0, not_le.mp hbreak⟩
        rw [if_pos hcond]
        simp only [List.cons.injEq, true_and]
        simpa using htail (s0 + c) rfl

theorem qps_isSome (requestNum e : Int) : ∃ q, qps requestNum e = some q := by
  unfold qps goDiv
  by_cases he : e > 0
  · rw [if_pos he, if_neg (ne_of_gt he)]
    exact ⟨_, rfl⟩
  · rw [if_neg he]
    exact ⟨_, rfl⟩

theorem reportResult_of_qps (f : Flags) (h : Histogram) (e q : Int)
    (hq : qps f.requestNum e = some q) :
    reportResult f h e =
      some
        { titles :=
            [ "================== " ++ f.opType ++ " =================",
              fmtD f.requestNum ++ " requests completed in " ++ fmtD e ++ " seconds",
              fmtD f.concurrentCount ++ " parallel clients",
              fmtD q ++ " query pre seconds" ]
          lines := percentileLines f.requestNum h } := by
  simp only [reportResult, hq, Option.map_some']

theorem reportResult_isSome (f : Flags) (h : Histogram) (e : Int) :
    ∃ r, reportResult f h e = some r ∧ r.lines = percentileLines f.requestNum h := by
  obtain ⟨q, hq⟩ := qps_isSome f.requestNum e
  exact ⟨_, reportResult_of_qps f h e q hq, rfl⟩

theorem percentileLoop_eq_exact (requestNum : Int) (l : List Int)
    (hnn : ∀ c ∈ l, 0 ≤ c) (i0 : Nat) (s0 : Int) (h0 : 0 ≤ s0)
    (hb : s0 + l.sum ≤ maxInt) :
    percentileLoop requestNum l i0 s0 = percentileLoopExact requestNum l i0 s0 := by
  induction l generalizing i0 s0 with
  | nil => rfl
  | cons c rest ih =>
    have hrest : ∀ d ∈ rest, 0 ≤ d := fun d hd => hnn d (List.mem_cons_of_mem c hd)
    have hc : 0 ≤ c := hnn c (List.mem_cons_self c rest)
    have hrs : 0 ≤ rest.sum := List.sum_nonneg hrest
    rw [List.sum_cons] at hb
    unfold maxInt at hb
    have hw : wrapInt (s0 + c) = s0 + c := wrapInt_of_range _ (by omega) (by omega)
    rw [percentileLoop, percentileLoopExact, hw,
      ih hrest (i0 + 1) s0 h0 (by unfold maxInt; omega),
      ih hrest (i0 + 1) (s0 + c) (by omega) (by unfold maxInt; omega)]

theorem percentileLines_eq_exact (requestNum : Int) (h : Histogram)
    (hnn : ∀ c ∈ h.spendCounter, 0 ≤ c) (hb : h.spendCounter.sum ≤ maxInt) :
    percentileLines requestNum h = percentileLoopExact requestNum h.spendCounter 0 0 :=
  percentileLoop_eq_exact requestNum h.spendCounter hnn 0 0 (le_refl _) (by rw [zero_add]; exact hb)

theorem percentileLines_eq_spec (requestNum : Int) (h : Histogram)
    (hnn : ∀ c ∈ h.spendCounter, 0 ≤ c) (hb : h.spendCounter.sum ≤ maxInt) :
    percentileLines requestNum h = percentileSpec requestNum h.spendCounter := by
  rw [percentileLines_eq_exact requestNum h hnn hb]
  unfold percentileSpec
  rw [percentileLoopExact_eq_filterMap requestNum h.spendCounter hnn 0 0]
  apply List.filterMap_congr
  intro k _
  simp

theorem percentileSpec_latency (requestNum : Int) (buckets : List Int) :
    (percentileSpec requestNum buckets).map Line.latency =
      (List.range buckets.length).filter fun i =>
        decide (buckets.getD i 0 ≠ 0 ∧ (buckets.take i).sum < requestNum) := by
  unfold percentileSpec
  induction List.range buckets.length with
  | nil => rfl
  | cons i is ih =>
    by_cases hc : buckets.getD i 0 ≠ 0 ∧ (buckets.take i).sum < requestNum
    · simp only [List.filterMap_cons, if_pos hc, List.map_cons, ih]
      rw [List.filter_cons_of_pos]
      simpa using hc
    · simp only [List.filterMap_cons, if_neg hc, ih]
      rw [List.filter_cons_of_neg]
      simpa using hc

theorem percentileSpec_mem (requestNum : Int) (buckets : List Int) (l : Line)
    (hl : l ∈ percentileSpec requestNum buckets) :
    l.latency < buckets.length ∧ buckets.getD l.latency 0 ≠ 0 ∧
      (buckets.take l.latency).sum < requestNum ∧
      l.cumulative = (buckets.take (l.latency + 1)).sum := by
  unfold percentileSpec at hl
  obtain ⟨i, hi, he⟩ := List.mem_filterMap.mp hl
  split_ifs at he with hc
  cases he
  exact ⟨List.mem_range.mp hi, hc.1, hc.2, rfl⟩

theorem sampleHistogram_length : sampleHistogram.spendCounter.length = 2000 := by
  show ([(2 : Int), 0, 1] ++ List.replicate 1997 0).length = 2000
  rw [List.length_append, List.length_replicate]
  rfl

theorem sampleHistogram_nonneg : ∀ c ∈ sampleHistogram.spendCounter, 0 ≤ c := by
  intro c hc
  rcases List.mem_append.mp hc with h | h
  · simp only [List.mem_cons, List.mem_singleton, List.not_mem_nil, or_false] at h
    rcases h with rfl | rfl | rfl <;> decide
  · rw [List.eq_of_mem_replicate h]

theorem sampleHistogram_sum : sampleHistogram.spendCounter.sum = 3 := by
  show ([(2 : Int), 0, 1] ++ List.replicate 1997 0).sum = (3 : Int)
  rw [List.sum_append, List.sum_replicate, smul_zero]
  rfl

theorem wrapHistogram_length : wrapHistogram.spendCounter.length = 2000 := by
  show ([(9223372036854775806 : Int), 2, 1] ++ List.replicate 1997 0).length = 2000
  rw [List.length_append, List.length_replicate]
  rfl

theorem wrapHistogram_nonneg : ∀ c ∈ wrapHistogram.spendCounter, 0 ≤ c := by
  intro c hc
  rcases List.mem_append.mp hc with h | h
  · simp only [List.mem_cons, List.mem_singleton, List.not_mem_nil, or_false] at h
    rcases h with rfl | rfl | rfl <;> decide
  · rw [List.eq_of_mem_replicate h]

theorem percentileLoop_zeros (requestNum : Int) (n i : Nat) (sum : Int) :
    percentileLoop requestNum (List.replicate n 0) i sum = [] := by
  induction n generalizing i with
  | zero => rfl
  | succ n ih =>
    rw [List.replicate_succ, percentileLoop]
    split_ifs
    · rfl
    · exact ih (i + 1)
    · contradiction

theorem wrapHistogram_lines :
    percentileLines 9223372036854775807 wrapHistogram =
      [ { latency := 0, cumulative := 9223372036854775806 },
        { latency := 1, cumulative := -9223372036854775808 },
        { latency := 2, cumulative := -9223372036854775807 } ] := by
  have hw1 : wrapInt (0 + 9223372036854775806) = 9223372036854775806 := by decide
  have hw2 : wrapInt (9223372036854775806 + 2) = -9223372036854775808 := by decide
  have hw3 : wrapInt (-9223372036854775808 + 1) = -9223372036854775807 := by decide
  show percentileLoop 9223372036854775807
    (9223372036854775806 :: 2 :: 1 :: List.replicate 1997 0) 0 0 = _
  rw [percentileLoop, if_neg (by decide), if_neg (by decide), hw1,
    percentileLoop, if_neg (by decide), if_neg (by decide), hw2,
    percentileLoop, if_neg (by decide), if_neg (by decide), hw3, percentileLoop_zeros]

theorem percentileLoopExact_cumulative_gt (requestNum : Int) (l : List Int)
    (hnn : ∀ c ∈ l, 0 ≤ c) (i0 : Nat) (s0 : Int) :
    ∀ line ∈ percentileLoopExact requestNum l i0 s0, s0 < line.cumulative := by
  induction l generalizing i0 s0 with
  | nil =>
    intro line hline
    simp [percentileLoopExact] at hline
  | cons c rest ih =>
    have hrest : ∀ d ∈ rest, 0 ≤ d := fun d hd => hnn d (List.mem_cons_of_mem c hd)
    have hc : 0 ≤ c := hnn c (List.mem_cons_self c rest)
    intro line hline
    rw [percentileLoopExact] at hline
    split_ifs at hline with hbreak hc0
    · simp at hline
    · exact ih hrest _ _ line hline
    · have hcpos : 0 < c := lt_of_le_of_ne hc (Ne.symm hc0)
      rcases List.mem_cons.mp hline with rfl | htl
      · simp only
        linarith
      · have := ih hrest _ _ line htl
        linarith

theorem percentileLoopExact_cumulative_sorted (requestNum : Int) (l : List Int)
    (hnn : ∀ c ∈ l, 0 ≤ c) (i0 : Nat) (s0 : Int) :
    ((percentileLoopExact requestNum l i0 s0).map Line.cumulative).Pairwise (· < ·) := by
  induction l generalizing i0 s0 with
  | nil => simp [percentileLoopExact]
  | cons c rest ih =>
    have hrest : ∀ d ∈ rest, 0 ≤ d := fun d hd => hnn d (List.mem_cons_of_mem c hd)
    rw [percentileLoopExact]
    split_ifs with hbreak hc0
    · simp
    · exact ih hrest _ _
    · rw [List.map_cons, List.pairwise_cons]
      refine ⟨?_, ih hrest _ _⟩
      intro x hx
      obtain ⟨line, hline, rfl⟩ := List.mem_map.mp hx
      exact percentileLoopExact_cumulative_gt requestNum rest hrest _ _ line hline

theorem percentileLoopExact_last (requestNum : Int) (l : List Int) (hnn : ∀ c ∈ l, 0 ≤ c)
    (i0 : Nat) (s0 : Int) (hlt : s0 < requestNum) (hsum : s0 + l.sum = requestNum) :
    ∃ last, (percentileLoopExact requestNum l i0 s0).getLast? = some last ∧
      last.cumulative = requestNum := by
  induction l generalizing i0 s0 with
  | nil =>
    simp only [List.sum_nil, add_zero] at hsum
    omega
  | cons c rest ih =>
    have hrest : ∀ d ∈ rest, 0 ≤ d := fun d hd => hnn d (List.mem_cons_of_mem c hd)
    have hrs : 0 ≤ rest.sum := List.sum_nonneg hrest
    rw [List.sum_cons] at hsum
    rw [percentileLoopExact, if_neg (not_le.mpr hlt)]
    by_cases hc0 : c = 0
    · rw [if_pos hc0]
      exact ih hrest _ _ hlt (by rw [hc0] at hsum; linarith)
    · rw [if_neg hc0]
      by_cases hdone : s0 + c < requestNum
      · obtain ⟨last, hl, hcum⟩ := ih hrest (i0 + 1) (s0 + c) hdone (by linarith)
        refine ⟨last, ?_, hcum⟩
        rw [List.getLast?_cons, hl]
        rfl
      · have heq : s0 + c = requestNum := by linarith
        have hnil : percentileLoopExact requestNum rest (i0 + 1) (s0 + c) = [] := by
          cases rest with
          | nil => rfl
          | cons d ds => rw [percentileLoopExact, if_pos (by linarith)]
        rw [hnil]
        exact ⟨_, rfl, heq⟩

theorem increments_sum (prev : Int) (lines : List Line) :
    (increments prev lines).sum =
      ((lines.getLast?.map Line.cumulative).getD prev) - prev := by
  induction lines generalizing prev with
  | nil => simp [increments]
  | cons l ls ih =>
    rw [increments, List.sum_cons, ih, List.getLast?_cons]
    cases ls.getLast? with
    | none => simp
    | some x => simp

/-! ## Facts about `%d` -/

theorem digitChar_inj (a b : Nat) (ha : a < 10) (hb : b < 10)
    (h : Nat.digitChar a = Nat.digitChar b) : a = b := by
  have key : ∀ x, x < 10 → (Nat.digitChar x).toNat - 48 = x := by
    intro x hx
    interval_cases x <;> rfl
  rw [← key a ha, ← key b hb, h]

theorem toDigitsCore_append (fuel n : Nat) (ds : List Char) :
    Nat.toDigitsCore 10 fuel n ds = Nat.toDigitsCore 10 fuel n [] ++ ds := by
  induction fuel generalizing n ds with
  | zero => rfl
  | succ fuel ih =>
    simp only [Nat.toDigitsCore]
    split_ifs
    · rfl
    · rw [ih (n / 10) (Nat.digitChar (n % 10) :: ds), ih (n / 10) [Nat.digitChar (n % 10)]]
      simp

theorem toDigitsCore_succ (fuel n : Nat) :
    Nat.toDigitsCore 10 (fuel + 1) n [] =
      if n / 10 = 0 then [Nat.digitChar (n % 10)]
      else Nat.toDigitsCore 10 fuel (n / 10) [] ++ [Nat.digitChar (n % 10)] := by
  simp only [Nat.toDigitsCore]
  split_ifs
  · rfl
  · exact toDigitsCore_append fuel (n / 10) _

theorem toDigitsCore_ne_nil (fuel n : Nat) :
    Nat.toDigitsCore 10 (fuel + 1) n [] ≠ [] := by
  rw [toDigitsCore_succ]
  split_ifs <;> simp

theorem toDigitsCore_inj (fuel1 : Nat) :
    ∀ fuel2 n m, n < fuel1 → m < fuel2 →
      Nat.toDigitsCore 10 fuel1 n [] = Nat.toDigitsCore 10 fuel2 m [] → n = m := by
  induction fuel1 with
  | zero =>
    intro fuel2 n m hn
    omega
  | succ fuel1 ih =>
    intro fuel2 n m hn hm heq
    cases fuel2 with
    | zero => omega
    | succ fuel2 =>
      rw [toDigitsCore_succ, toDigitsCore_succ] at heq
      have hnmod : n % 10 < 10 := Nat.mod_lt n (by decide)
      have hmmod : m % 10 < 10 := Nat.mod_lt m (by decide)
      by_cases h1 : n / 10 = 0 <;> by_cases h2 : m / 10 = 0
      · rw [if_pos h1, if_pos h2] at heq
        have := digitChar_inj _ _ hnmod hmmod (List.head_eq_of_cons_eq heq)
        omega
      · rw [if_pos h1, if_neg h2] at heq
        exfalso
        cases fuel2 with
        | zero => omega
        | succ k =>
          have hne := toDigitsCore_ne_nil k (m / 10)
          have hlen := congrArg List.length heq
          simp only [List.length_singleton, List.length_append] at hlen
          have : (Nat.toDigitsCore 10 (k + 1) (m / 10) []).length ≠ 0 := by
            rwa [Ne, List.length_eq_zero]
          omega
      · rw [if_neg h1, if_pos h2] at heq
        exfalso
        cases fuel1 with
        | zero => omega
        | succ k =>
          have hne := toDigitsCore_ne_nil k (n / 10)
          have hlen := congrArg List.length heq
          simp only [List.length_singleton, List.length_append] at hlen
          have : (Nat.toDigitsCore 10 (k + 1) (n / 10) []).length ≠ 0 := by
            rwa [Ne, List.length_eq_zero]
          omega
      · rw [if_neg h1, if_neg h2] at heq
        obtain ⟨e1, e2⟩ := List.append_inj' heq rfl
        have hd := ih fuel2 (n / 10) (m / 10) (by omega) (by omega) e1
        have hr := digitChar_inj _ _ hnmod hmmod (List.head_eq_of_cons_eq e2)
        omega

theorem repr_inj (n m : Nat) (h : Nat.repr n = Nat.repr m) : n = m := by
  unfold Nat.repr Nat.toDigits at h
  have hd : Nat.toDigitsCore 10 (n + 1) n [] = Nat.toDigitsCore 10 (m + 1) m [] :=
    congrArg String.data h
  exact toDigitsCore_inj (n + 1) (m + 1) n m (Nat.lt_succ_self n) (Nat.lt_succ_self m) hd

theorem fmtD_of_nonneg (x : Int) (hx : 0 ≤ x) : fmtD x = Nat.repr x.toNat := by
  unfold fmtD
  rw [if_neg (not_lt.mpr hx)]

theorem member_inj (key : String) (x y : Int) (hx : 0 ≤ x) (hy : 0 ≤ y)
    (h : key ++ fmtD x = key ++ fmtD y) : x = y := by
  have hd := congrArg String.data h
  rw [String.data_append, String.data_append] at hd
  have hf : fmtD x = fmtD y := String.ext (List.append_cancel_left hd)
  rw [fmtD_of_nonneg x hx, fmtD_of_nonneg y hy] at hf
  have := repr_inj _ _ hf
  omega

theorem runMembers_eq (f : Flags) (clock : Int → Int × Int) (c p : Nat) (q : Int) :
    runMembers ((List.range c).map fun (k : Nat) => stressSet f clock ((k : Int) * q) p) =
      ((List.range c).map fun (k : Nat) =>
        (List.range p).map fun (i : Nat) => f.key ++ fmtD ((k : Int) * q + (i : Int))).flatten := by
  unfold runMembers
  rw [List.map_flatten, List.map_map]
  congr 1
  apply List.map_congr_left
  intro k _
  simp only [Function.comp_apply, stressSet, Int.toNat_ofNat, List.map_map]
  rfl

theorem members_nodup (key : String) (c p : Nat) :
    (((List.range c).map fun (k : Nat) =>
      (List.range p).map fun (i : Nat) =>
        key ++ fmtD ((k : Int) * (p : Int) + (i : Int))).flatten).Nodup := by
  rw [List.nodup_flatten]
  constructor
  · intro l hl
    obtain ⟨k, _, rfl⟩ := List.mem_map.mp hl
    refine List.Nodup.map_on ?_ (List.nodup_range p)
    intro i _ j _ hij
    have hk : (0 : Int) ≤ (k : Int) * (p : Int) := by positivity
    have := member_inj key _ _ (by omega) (by omega) hij
    omega
  · rw [List.pairwise_map]
    refine (List.pairwise_lt_range c).imp ?_
    intro a b hab
    rw [List.disjoint_left]
    intro x hxa hxb
    obtain ⟨i, hi, rfl⟩ := List.mem_map.mp hxa
    obtain ⟨j, hj, hx⟩ := List.mem_map.mp hxb
    have hi' := List.mem_range.mp hi
    have hj' := List.mem_range.mp hj
    have ha0 : (0 : Int) ≤ (a : Int) * (p : Int) := by positivity
    have hb0 : (0 : Int) ≤ (b : Int) * (p : Int) := by positivity
    have heq := member_inj key _ _ (by omega) (by omega) hx
    have hab' : ((a : Int) + 1) * (p : Int) ≤ (b : Int) * (p : Int) :=
      mul_le_mul_of_nonneg_right (by exact_mod_cast hab) (Int.natCast_nonneg p)
    have hi'' : (i : Int) < p := by exact_mod_cast hi'
    have hj0 : (0 : Int) ≤ j := Int.natCast_nonneg j
    linarith

theorem members_length (key : String) (c p : Nat) (q : Int) :
    (((List.range c).map fun (k : Nat) =>
      (List.range p).map fun (i : Nat) =>
        key ++ fmtD ((k : Int) * q + (i : Int))).flatten).length = c * p := by
  rw [List.length_flatten, List.map_map]
  have : (List.length ∘ fun (k : Nat) =>
      (List.range p).map fun (i : Nat) => key ++ fmtD ((k : Int) * q + (i : Int))) =
      fun _ : Nat => p := by
    funext k
    simp
  rw [this, List.map_const', List.sum_replicate, List.length_range, smul_eq_mul]

/-! ## C1: one call of `spendCounterInc` -/

/-- C1 fails as stated: on the histogram whose bucket 0 and whose `slowRequestCount` hold
the largest `int`, the call with index 0 leaves `-2^63` in bucket 0 and the call with index
2000 leaves `-2^63` in `slowRequestCount`; neither counter has grown by one. -/
theorem spendCounterInc_wraps :
    fullHistogram.spendCounter.length = 2000 ∧
    spendCounterInc fullHistogram 0 =
      some { spendCounter := -9223372036854775808 :: List.replicate 1999 0
             slowRequestCount := 9223372036854775807 } ∧
    spendCounterInc fullHistogram 2000 =
      some { spendCounter := 9223372036854775807 :: List.replicate 1999 0
             slowRequestCount := -9223372036854775808 } ∧
    (¬∃ h', spendCounterInc fullHistogram 0 = some h' ∧
      h'.spendCounter[0]? = (fullHistogram.spendCounter[0]?).map (· + 1)) ∧
    ¬∃ h', spendCounterInc fullHistogram 2000 = some h' ∧
      h'.slowRequestCount = fullHistogram.slowRequestCount + 1 := by
  have hlen : fullHistogram.spendCounter.length = 2000 := by
    show (9223372036854775807 :: List.replicate 1999 (0 : Int)).length = 2000
    rw [List.length_cons, List.length_replicate]
  have hw : wrapInt (9223372036854775807 + 1) = -9223372036854775808 := by decide
  have e0 : spendCounterInc fullHistogram 0 =
      some { spendCounter := -9223372036854775808 :: List.replicate 1999 0
             slowRequestCount := 9223372036854775807 } := by
    rw [spendCounterInc_of_lt fullHistogram 0 (le_refl _) (by rw [hlen]; decide)]
    show some ({ spendCounter := wrapInt (9223372036854775807 + 1) :: List.replicate 1999 0
                 slowRequestCount := 9223372036854775807 } : Histogram) = _
    rw [hw]
  have e1 : spendCounterInc fullHistogram 2000 =
      some { spendCounter := 9223372036854775807 :: List.replicate 1999 0
             slowRequestCount := -9223372036854775808 } := by
    rw [spendCounterInc_of_ge fullHistogram 2000 (by rw [hlen]; decide)]
    show some ({ spendCounter := 9223372036854775807 :: List.replicate 1999 0
                 slowRequestCount := wrapInt (9223372036854775807 + 1) } : Histogram) = _
    rw [hw]
  refine ⟨hlen, e0, e1, ?_, ?_⟩
  · rintro ⟨h', hs, hb⟩
    rw [e0] at hs
    cases hs
    have hf : fullHistogram.spendCounter = 9223372036854775807 :: List.replicate 1999 0 :=
      rfl
    simp only [hf, List.getElem?_cons_zero, Option.map_some'] at hb
    exact absurd (Option.some.inj hb) (by decide)
  · rintro ⟨h', hs, hb⟩
    rw [e1] at hs
    cases hs
    change (-9223372036854775808 : Int) = 9223372036854775807 + 1 at hb
    exact absurd hb (by decide)

/-- C1, amended. On a histogram with 2000 buckets in which every counter is an `int` below
the largest one, `spendCounterInc index` with `index ≥ 0` never panics; for `index < 2000`
it adds one to bucket `index` and changes neither another bucket nor `slowRequestCount`; for
`index ≥ 2000` (so also for `index = 2000`) it adds one to `slowRequestCount` and leaves the
buckets as they are. -/
theorem spendCounterInc_spec (h : Histogram) (index : Int)
    (hlen : h.spendCounter.length = 2000)
    (hb : ∀ c ∈ h.spendCounter, minInt ≤ c ∧ c < maxInt)
    (hs : minInt ≤ h.slowRequestCount ∧ h.slowRequestCount < maxInt) (h0 : 0 ≤ index) :
    ∃ h', spendCounterInc h index = some h' ∧
      h'.spendCounter.length = 2000 ∧
      (index < 2000 →
        h'.spendCounter[index.toNat]? = (h.spendCounter[index.toNat]?).map (· + 1) ∧
        (∃ c, h.spendCounter[index.toNat]? = some c) ∧
        (∀ j, j ≠ index.toNat → h'.spendCounter[j]? = h.spendCounter[j]?) ∧
        h'.slowRequestCount = h.slowRequestCount) ∧
      (2000 ≤ index →
        h'.slowRequestCount = h.slowRequestCount + 1 ∧
        h'.spendCounter = h.spendCounter) := by
  unfold minInt maxInt at hb hs
  by_cases hge : (h.spendCounter.length : Int) ≤ index
  · refine ⟨_, spendCounterInc_of_ge h index hge, hlen, ?_, ?_⟩
    · intro hlt
      omega
    · intro _
      exact ⟨wrapInt_of_range _ (by omega) (by omega), rfl⟩
  · have hlt : index < (h.spendCounter.length : Int) := not_le.mp hge
    have hn : index.toNat < h.spendCounter.length := by omega
    have hc := hb _ (List.getElem_mem hn)
    have hw : wrapInt (h.spendCounter.getD index.toNat 0 + 1) =
        h.spendCounter[index.toNat] + 1 := by
      rw [List.getD_eq_getElem _ _ hn]
      exact wrapInt_of_range _ (by omega) (by omega)
    refine ⟨_, spendCounterInc_of_lt h index h0 hlt, ?_, ?_, ?_⟩
    · simp [hlen]
    · intro _
      refine ⟨?_, ⟨h.spendCounter[index.toNat], List.getElem?_eq_getElem hn⟩, ?_, rfl⟩
      · simp only [hw]
        simp [List.getElem?_set, hn, List.getElem?_eq_getElem hn]
      · intro j hj
        simp [List.getElem?_set, Ne.symm hj]
    · intro h2
      omega

/-- C1, amended, at the boundary: the call with index 2000 on the initial histogram. -/
theorem spendCounterInc_spec_witness :
    Histogram.initial.spendCounter.length = 2000 ∧
    (∀ c ∈ Histogram.initial.spendCounter, minInt ≤ c ∧ c < maxInt) ∧
    (minInt ≤ Histogram.initial.slowRequestCount ∧
      Histogram.initial.slowRequestCount < maxInt) ∧
    ∃ h', spendCounterInc Histogram.initial 2000 = some h' ∧
      h'.spendCounter.length = 2000 ∧
      ((2000 : Int) < 2000 →
        h'.spendCounter[(2000 : Int).toNat]? =
          (Histogram.initial.spendCounter[(2000 : Int).toNat]?).map (· + 1) ∧
        (∃ c, Histogram.initial.spendCounter[(2000 : Int).toNat]? = some c) ∧
        (∀ j, j ≠ (2000 : Int).toNat →
          h'.spendCounter[j]? = Histogram.initial.spendCounter[j]?) ∧
        h'.slowRequestCount = Histogram.initial.slowRequestCount) ∧
      ((2000 : Int) ≤ 2000 →
        h'.slowRequestCount = Histogram.initial.slowRequestCount + 1 ∧
        h'.spendCounter = Histogram.initial.spendCounter) :=
  have hb : ∀ c ∈ Histogram.initial.spendCounter, minInt ≤ c ∧ c < maxInt := fun c hc => by
    rw [List.eq_of_mem_replicate hc]
    decide
  have hs : minInt ≤ Histogram.initial.slowRequestCount ∧
      Histogram.initial.slowRequestCount < maxInt := by decide
  ⟨List.length_replicate 2000 (0 : Int), hb, hs,
    spendCounterInc_spec Histogram.initial 2000 (List.length_replicate 2000 (0 : Int)) hb hs
      (by decide)⟩

/-! ## C2: the count invariant -/

/-- C2. From the initial histogram, every sequence of `spendCounterInc` calls with
non-negative arguments (the calls of all goroutines in the order in which they hold
`spendCounterLock`, whatever that order is) runs to its end, leaves 2000 buckets whose sum
plus `slowRequestCount` is the number of calls, and at every single call of the sequence no
bucket and not `slowRequestCount` gets smaller.  The number of calls is an `int`, as is
`requestNum`, which bounds it in every run. -/
theorem recordAll_initial_spec (calls : List Int) (hnn : ∀ c ∈ calls, 0 ≤ c)
    (hmax : (calls.length : Int) ≤ maxInt) :
    ∃ h, recordAll Histogram.initial calls = some h ∧
      h.spendCounter.length = 2000 ∧
      h.spendCounter.sum + h.slowRequestCount = (calls.length : Int) ∧
      ∀ pre c post, calls = pre ++ c :: post →
        ∃ h1 h2, recordAll Histogram.initial pre = some h1 ∧
          spendCounterInc h1 c = some h2 ∧
          recordAll h2 post = some h ∧
          h1.spendCounter.sum + h1.slowRequestCount = (pre.length : Int) ∧
          (∀ j, h1.spendCounter.getD j 0 ≤ h2.spendCounter.getD j 0) ∧
          h1.slowRequestCount ≤ h2.slowRequestCount := by
  obtain ⟨h, eh, ht, _, hl⟩ :=
    recordAll_total Histogram.initial calls initial_nonNeg hnn (by rw [initial_total, zero_add]; exact hmax)
  refine ⟨h, eh, by rw [hl, initial_length], ?_, ?_⟩
  · have := ht
    rw [initial_total] at this
    simpa [Histogram.total] using this
  · intro pre c post hsplit
    subst hsplit
    simp only [List.length_append, List.length_cons] at hmax
    push_cast at hmax
    have hpost0 : (0 : Int) ≤ (post.length : Int) := Int.natCast_nonneg _
    obtain ⟨h1, e1, t1, n1, _⟩ :=
      recordAll_total Histogram.initial pre initial_nonNeg
        (fun d hd => hnn d (List.mem_append_left _ hd))
        (by rw [initial_total, zero_add]; omega)
    rw [initial_total, zero_add] at t1
    obtain ⟨h2, e2⟩ := spendCounterInc_isSome h1 c
      (hnn c (List.mem_append_right _ (List.mem_cons_self c post)))
    obtain ⟨_, _, m1, m2⟩ := spendCounterInc_total h1 h2 c n1 (by rw [t1]; omega) e2
    rw [recordAll_append, e1] at eh
    simp only [Option.some_bind, recordAll, e2] at eh
    exact ⟨h1, h2, e1, e2, eh, by simpa [Histogram.total] using t1, m1, m2⟩

/-- C2 on three calls, one of them into the overflow counter. -/
theorem recordAll_initial_spec_witness :
    (∀ c ∈ [(5 : Int), 2000, 5], 0 ≤ c) ∧
    ((([5, 2000, 5] : List Int).length : Int) ≤ maxInt) ∧
    ∃ h, recordAll Histogram.initial [5, 2000, 5] = some h ∧
      h.spendCounter.length = 2000 ∧
      h.spendCounter.sum + h.slowRequestCount = (([5, 2000, 5] : List Int).length : Int) ∧
      ∀ pre c post, [(5 : Int), 2000, 5] = pre ++ c :: post →
        ∃ h1 h2, recordAll Histogram.initial pre = some h1 ∧
          spendCounterInc h1 c = some h2 ∧
          recordAll h2 post = some h ∧
          h1.spendCounter.sum + h1.slowRequestCount = (pre.length : Int) ∧
          (∀ j, h1.spendCounter.getD j 0 ≤ h2.spendCounter.getD j 0) ∧
          h1.slowRequestCount ≤ h2.slowRequestCount :=
  ⟨by decide, by decide, recordAll_initial_spec [5, 2000, 5] (by decide) (by decide)⟩

/-! ## C3: how `main` cuts the request count into partitions -/

/-- C3. For `requestNum ≥ 0` and `concurrentCount > 0`, with `p` the truncated quotient
`requestNum / concurrentCount`: `main` starts exactly `concurrentCount` goroutines, goroutine
`k` (counted from 0) is `stressSet` with offset `k * p` and count `p`; the counts add up to
`p * concurrentCount`, which is at most `requestNum`, and what is missing is
`requestNum mod concurrentCount`. -/
theorem partitions_spec (f : Flags) (clock : Int → Int × Int) (hn : 0 ≤ f.requestNum)
    (hc : 0 < f.concurrentCount) :
    ∃ ps, partitions f = some ps ∧
      mainWorkers f clock = some (ps.map fun q => stressSet f clock q.1 q.2) ∧
      (ps.length : Int) = f.concurrentCount ∧
      (∀ k : Nat, (k : Int) < f.concurrentCount →
        ps[k]? =
          some ((k : Int) * Int.tdiv f.requestNum f.concurrentCount,
            Int.tdiv f.requestNum f.concurrentCount)) ∧
      (ps.map Prod.snd).sum = Int.tdiv f.requestNum f.concurrentCount * f.concurrentCount ∧
      Int.tdiv f.requestNum f.concurrentCount * f.concurrentCount ≤ f.requestNum ∧
      f.requestNum - Int.tdiv f.requestNum f.concurrentCount * f.concurrentCount =
        Int.tmod f.requestNum f.concurrentCount ∧
      Int.tmod f.requestNum f.concurrentCount = f.requestNum % f.concurrentCount := by
  obtain ⟨_, t2, t3, t4, _⟩ := tdiv_facts f.requestNum f.concurrentCount hn hc
  have hcn : ((f.concurrentCount.toNat : Nat) : Int) = f.concurrentCount :=
    Int.toNat_of_nonneg (le_of_lt hc)
  refine ⟨_, partitions_eq f hc, ?_, ?_, ?_, ?_, t2, t3, t4⟩
  · simp only [mainWorkers, partitions_eq f hc, Option.map_some']
  · simp only [List.length_map, List.length_range]
    exact hcn
  · intro k hk
    have hk' : k < f.concurrentCount.toNat := by omega
    simp [List.getElem?_map, List.getElem?_range hk']
  · rw [sum_map_const_snd, hcn]

/-- C3 for 7 requests and 3 goroutines. -/
theorem partitions_spec_witness :
    (0 : Int) ≤ 7 ∧ (0 : Int) < 3 ∧
    ∃ ps, partitions ⟨"sadd", 7, 3, "pikatest"⟩ = some ps ∧
      mainWorkers ⟨"sadd", 7, 3, "pikatest"⟩ (fun _ => (0, 0)) =
        some (ps.map fun q =>
          stressSet ⟨"sadd", 7, 3, "pikatest"⟩ (fun _ => (0, 0)) q.1 q.2) ∧
      (ps.length : Int) = 3 ∧
      (∀ k : Nat, (k : Int) < 3 → ps[k]? = some ((k : Int) * Int.tdiv 7 3, Int.tdiv 7 3)) ∧
      (ps.map Prod.snd).sum = Int.tdiv 7 3 * 3 ∧
      Int.tdiv 7 3 * 3 ≤ 7 ∧
      7 - Int.tdiv 7 3 * 3 = Int.tmod 7 3 ∧
      Int.tmod 7 3 = 7 % 3 :=
  ⟨by decide, by decide,
    partitions_spec ⟨"sadd", 7, 3, "pikatest"⟩ (fun _ => (0, 0)) (by decide) (by decide)⟩

/-! ## C4: what the partitions cover -/

/-- C4 fails as stated: with 7 requests and 3 goroutines `main` hands out `[0,2)`, `[2,4)`
and `[4,6)`; index 6 is below 7 and in none of them, so the union is not `[0, 7)`. -/
theorem partitions_cover_counterexample :
    partitions ⟨"sadd", 7, 3, "pikatest"⟩ = some [(0, 2), (2, 2), (4, 2)] ∧
      (¬∃ q ∈ [((0 : Int), (2 : Int)), (2, 2), (4, 2)], inRange q 6) ∧
      ¬CoversExactly [(0, 2), (2, 2), (4, 2)] 7 := by
  have h6 : ¬∃ q ∈ [((0 : Int), (2 : Int)), (2, 2), (4, 2)], inRange q 6 := by decide
  refine ⟨by decide, h6, ?_⟩
  intro hcov
  exact h6 ((hcov 6).mpr (by decide))

/-- C4, amended. For `requestNum ≥ 0` and `concurrentCount > 0` the ranges
`[offset, offset + count)` of the goroutines do not overlap, each ends where the next one
starts, and their union is `[0, concurrentCount * (requestNum / concurrentCount))`; this is
`[0, requestNum)` when `concurrentCount` divides `requestNum`. -/
theorem partitions_cover (f : Flags) (hn : 0 ≤ f.requestNum) (hc : 0 < f.concurrentCount) :
    ∃ ps, partitions f = some ps ∧ NonOverlapping ps ∧ Contiguous ps ∧
      CoversExactly ps (f.concurrentCount * Int.tdiv f.requestNum f.concurrentCount) ∧
      (f.requestNum % f.concurrentCount = 0 → CoversExactly ps f.requestNum) := by
  obtain ⟨t1, _, _, _, t5⟩ := tdiv_facts f.requestNum f.concurrentCount hn hc
  have hcn : ((f.concurrentCount.toNat : Nat) : Int) = f.concurrentCount :=
    Int.toNat_of_nonneg (le_of_lt hc)
  have hcov := coversExactly_map (Int.tdiv f.requestNum f.concurrentCount)
    f.concurrentCount.toNat t1
  rw [hcn] at hcov
  refine ⟨_, partitions_eq f hc, nonOverlapping_map _ _ t1, contiguous_map _ _, hcov, ?_⟩
  intro hmod
  have hfull : f.concurrentCount * Int.tdiv f.requestNum f.concurrentCount = f.requestNum := by
    rw [t5]
    exact Int.mul_ediv_cancel' (Int.dvd_of_emod_eq_zero hmod)
  rw [hfull] at hcov
  exact hcov

/-- C4, amended, for 10 requests and 2 goroutines. -/
theorem partitions_cover_witness :
    (0 : Int) ≤ 10 ∧ (0 : Int) < 2 ∧
    ∃ ps, partitions ⟨"sadd", 10, 2, "pikatest"⟩ = some ps ∧ NonOverlapping ps ∧
      Contiguous ps ∧ CoversExactly ps (2 * Int.tdiv 10 2) ∧
      ((10 : Int) % 2 = 0 → CoversExactly ps 10) :=
  ⟨by decide, by decide, partitions_cover ⟨"sadd", 10, 2, "pikatest"⟩ (by decide) (by decide)⟩

/-! ## C5: the histogram after a run -/

/-- C5. For `requestNum ≥ 0`, `concurrentCount > 0` and any `opType`, when the store
answers every command without error and no measured duration is negative: every goroutine
`main` starts contains exactly `requestNum / concurrentCount` calls of `spendCounterInc`
(one per index of its partition); no schedule makes the run panic; some schedule lets all
goroutines return; and whenever all goroutines have returned, the sum of the buckets plus
`slowRequestCount` is `concurrentCount * (requestNum / concurrentCount)`: 6 and not 7 for
7 requests on 3 goroutines, 10 for 10 requests on 2 goroutines.  The flag `requestNum` is
an `int`. -/
theorem mainRun_total (f : Flags) (clock : Int → Int × Int) (store : Command → Bool)
    (hn : 0 ≤ f.requestNum) (hmax : f.requestNum ≤ maxInt) (hc : 0 < f.concurrentCount)
    (hclock : ∀ n, (clock n).1 ≤ (clock n).2) (hstore : ∀ cmd, store cmd = true) :
    (∃ ws, mainWorkers f clock = some ws ∧ (ws.length : Int) = f.concurrentCount ∧
      ∀ w ∈ ws, incCount (workerSteps w) = Int.tdiv f.requestNum f.concurrentCount) ∧
    (∀ schedule, ∃ s, mainRun f clock store schedule = some s) ∧
    (∃ schedule s, mainRun f clock store schedule = some s ∧ s.finished = true) ∧
    ∀ schedule s, mainRun f clock store schedule = some s → s.finished = true →
      s.hist.spendCounter.sum + s.hist.slowRequestCount =
          f.concurrentCount * Int.tdiv f.requestNum f.concurrentCount ∧
        (f.requestNum = 7 → f.concurrentCount = 3 →
          s.hist.spendCounter.sum + s.hist.slowRequestCount = 6 ∧
            s.hist.spendCounter.sum + s.hist.slowRequestCount ≠ 7) ∧
        (f.requestNum = 10 → f.concurrentCount = 2 →
          s.hist.spendCounter.sum + s.hist.slowRequestCount = 10) := by
  obtain ⟨t1, t2, _⟩ := tdiv_facts f.requestNum f.concurrentCount hn hc
  have hstart := mainStart_eq f clock hc
  obtain ⟨s0, hs0⟩ : ∃ s0, mainStart f clock = some s0 := ⟨_, hstart⟩
  have hsafe := mainStart_safe f clock hclock s0 hc hs0
  obtain ⟨hh0, hp0⟩ := mainStart_pending f clock s0 hn hc hs0
  have hinv0 : s0.Inv := by
    refine ⟨by rw [hh0]; exact initial_nonNeg, ?_⟩
    rw [hh0, initial_total, hp0, zero_add, mul_comm]
    exact le_trans t2 hmax
  have hrun : ∀ schedule, mainRun f clock store schedule = runSchedule store s0 schedule := by
    intro schedule
    simp [mainRun, hs0]
  refine ⟨?_, ?_, ?_, ?_⟩
  · refine ⟨_, mainWorkers_eq f clock hc, ?_, ?_⟩
    · simp only [List.length_map, List.length_range]
      exact Int.toNat_of_nonneg (le_of_lt hc)
    · intro w hw
      obtain ⟨k, _, rfl⟩ := List.mem_map.mp hw
      simp only [incCount_workerSteps, stressSet_length]
      exact Int.toNat_of_nonneg t1
  · intro schedule
    rw [hrun]
    exact runSchedule_isSome store hstore s0 hsafe schedule
  · obtain ⟨schedule, s, e, hf⟩ :=
      exists_finishing_schedule store hstore s0.remaining.toNat s0 hsafe (Int.self_le_toNat _)
    exact ⟨schedule, s, by rw [hrun]; exact e, hf⟩
  · intro schedule s hs hf
    rw [hrun] at hs
    have hinv := runSchedule_invariant store s0 s schedule hs hinv0
    rw [pending_of_finished s hf, hh0, initial_total, hp0] at hinv
    have htot : s.hist.spendCounter.sum + s.hist.slowRequestCount =
        f.concurrentCount * Int.tdiv f.requestNum f.concurrentCount := by
      simpa [Histogram.total] using hinv
    refine ⟨htot, ?_, ?_⟩
    · intro h7 h3
      rw [htot, h7, h3]
      decide
    · intro h10 h2
      rw [htot, h10, h2]
      decide

/-- C5 for 7 requests on 3 goroutines with an operation `stressSet` does not know. -/
theorem mainRun_total_witness :
    (0 : Int) ≤ 7 ∧ (7 : Int) ≤ maxInt ∧ (0 : Int) < 3 ∧
    (∀ n : Int, ((fun _ : Int => ((0 : Int), (0 : Int))) n).1 ≤
      ((fun _ : Int => ((0 : Int), (0 : Int))) n).2) ∧
    (∀ cmd : Command, (fun _ : Command => true) cmd = true) ∧
    (∃ schedule s,
      mainRun ⟨"zscore", 7, 3, "pikatest"⟩ (fun _ => (0, 0)) (fun _ => true) schedule =
        some s ∧ s.finished = true) ∧
    ∀ schedule s,
      mainRun ⟨"zscore", 7, 3, "pikatest"⟩ (fun _ => (0, 0)) (fun _ => true) schedule =
        some s →
      s.finished = true →
      s.hist.spendCounter.sum + s.hist.slowRequestCount = 6 ∧
        s.hist.spendCounter.sum + s.hist.slowRequestCount ≠ 7 :=
  have key := mainRun_total ⟨"zscore", 7, 3, "pikatest"⟩ (fun _ => (0, 0)) (fun _ => true)
    (by decide) (by decide) (by decide) (fun _ => le_refl _) (fun _ => rfl)
  ⟨by decide, by decide, by decide, fun _ => le_refl _, fun _ => rfl, key.2.2.1,
    fun schedule s hs hf => (key.2.2.2 schedule s hs hf).2.1 rfl rfl⟩

/-! ## C6: the command a run sends for a logical index -/

/-- C6, evaluated where the code departs from it: with `-t zadd -n 1 -c 1 -k pikatest` the
goroutine `main` starts builds the member `pikatest0` and sends no command, and the run
ends with nothing sent; `stressZset`, which `main` never starts, would send
`zadd pikatest 0 pikatest0`, and sends nothing for `zscore`. -/
theorem main_zadd_sends_nothing :
    mainWorkers ⟨"zadd", 1, 1, "pikatest"⟩ (fun _ => (0, 0)) =
      some [[{ member := "pikatest0", command := none, spend := 0 }]] ∧
    (mainRun ⟨"zadd", 1, 1, "pikatest"⟩ (fun _ => (0, 0)) (fun _ => true) [0]).map
      (fun s => (s.finished, s.sent)) = some (true, []) ∧
    stressZset ⟨"zadd", 1, 1, "pikatest"⟩ (fun _ => (0, 0)) 0 1 =
      [{ member := "pikatest0"
         command := some ⟨"zadd", [Arg.str "pikatest", Arg.int 0, Arg.str "pikatest0"]⟩
         spend := 0 }] ∧
    stressZset ⟨"zscore", 1, 1, "pikatest"⟩ (fun _ => (0, 0)) 0 1 =
      [{ member := "pikatest0", command := none, spend := 0 }] := by
  refine ⟨by decide, by decide!, by decide, by decide⟩

/-! ## C7: queries per second -/

/-- C7. For every `requestNum` and every `totalSpendSecond = e`, `reportResult` returns
without dividing by zero and the `qps` it prints is the truncated quotient `requestNum / e`
when `e > 0` and `requestNum` itself when `e = 0`; the `e` that `main` passes is the
difference of its two clock readings in nanoseconds divided by `10^9`, truncated. -/
theorem reportResult_qps (f : Flags) (h : Histogram) (e : Int) :
    (∃ q r, qps f.requestNum e = some q ∧ reportResult f h e = some r ∧
      r.titles[3]? = some (fmtD q ++ " query pre seconds") ∧
      (0 < e → goDiv f.requestNum e = some q ∧ q = Int.tdiv f.requestNum e) ∧
      (0 < e → 0 ≤ f.requestNum → q = f.requestNum / e) ∧
      (e = 0 → q = f.requestNum)) ∧
    ∀ t0 t1 : Int, elapsedSeconds t0 t1 = Int.tdiv (t1 - t0) 1000000000 ∧
      (t0 ≤ t1 → 0 ≤ elapsedSeconds t0 t1 ∧
        elapsedSeconds t0 t1 * 1000000000 ≤ t1 - t0 ∧
        t1 - t0 < (elapsedSeconds t0 t1 + 1) * 1000000000) := by
  constructor
  · by_cases he : 0 < e
    · have hq : qps f.requestNum e = some (Int.tdiv f.requestNum e) := by
        unfold qps goDiv
        rw [if_pos he, if_neg (ne_of_gt he)]
      refine ⟨Int.tdiv f.requestNum e, _, hq, reportResult_of_qps f h e _ hq, rfl, ?_, ?_, ?_⟩
      · intro _
        exact ⟨by unfold goDiv; rw [if_neg (ne_of_gt he)], rfl⟩
      · intro _ hn
        exact Int.tdiv_eq_ediv hn (le_of_lt he)
      · intro h0
        omega
    · have hq : qps f.requestNum e = some f.requestNum := by
        unfold qps
        rw [if_neg he]
      refine ⟨f.requestNum, _, hq, reportResult_of_qps f h e _ hq, rfl, ?_, ?_, ?_⟩
      · intro h0
        exact absurd h0 he
      · intro h0
        exact absurd h0 he
      · intro _
        rfl
  · intro t0 t1
    refine ⟨rfl, ?_⟩
    intro hle
    have hd : 0 ≤ t1 - t0 := sub_nonneg.mpr hle
    have e1 : elapsedSeconds t0 t1 = (t1 - t0) / 1000000000 :=
      Int.tdiv_eq_ediv hd (by decide)
    rw [e1]
    refine ⟨Int.ediv_nonneg hd (by decide), Int.ediv_mul_le _ (by decide),
      Int.lt_ediv_add_one_mul_self _ (by decide)⟩

/-! ## C8: the percentile lines -/

/-- C8 fails as stated: for `requestNum = 2^63 - 1` and the 2000 non-negative buckets
`2^63 - 2, 2, 1, 0, 0, ...` the running `sum` wraps at bucket 1, so `reportResult` prints a
line for bucket 1 with the cumulative count `-2^63`, which is not the sum of the buckets
`0..1`, and a line for bucket 2, although the buckets `0..1` sum to more than
`requestNum`. -/
theorem reportResult_lines_wrap :
    wrapHistogram.spendCounter.length = 2000 ∧
    (∀ c ∈ wrapHistogram.spendCounter, 0 ≤ c) ∧
    (0 : Int) < 9223372036854775807 ∧
    (reportResult ⟨"sadd", 9223372036854775807, 1, "pikatest"⟩ wrapHistogram 0).map
        Report.lines =
      some
        [ { latency := 0, cumulative := 9223372036854775806 },
          { latency := 1, cumulative := -9223372036854775808 },
          { latency := 2, cumulative := -9223372036854775807 } ] ∧
    (wrapHistogram.spendCounter.take 2).sum = 9223372036854775808 ∧
    ¬(wrapHistogram.spendCounter.take 2).sum < 9223372036854775807 := by
  obtain ⟨r, hr, hrl⟩ :=
    reportResult_isSome ⟨"sadd", 9223372036854775807, 1, "pikatest"⟩ wrapHistogram 0
  have hsum : (wrapHistogram.spendCounter.take 2).sum = 9223372036854775808 := by
    show (List.take 2 ((9223372036854775806 : Int) :: 2 :: 1 :: List.replicate 1997 0)).sum =
      9223372036854775808
    decide
  refine ⟨wrapHistogram_length, wrapHistogram_nonneg, by decide, ?_, hsum, ?_⟩
  · rw [hr, Option.map_some', hrl]
    exact congrArg some wrapHistogram_lines
  · rw [hsum]
    decide

/-- C8, amended. For a histogram of 2000 non-negative buckets whose sum is at most the
largest `int`, and any `requestNum`, positive or not, the lines `reportResult` prints are in
strictly increasing order of latency; there is a line with latency `i` exactly when
`i < 2000`, bucket `i` is non-zero and the buckets before `i` sum to less than `requestNum`;
a line with latency `i` carries the sum of the buckets `0..i`, so the exact value of its
percentage is `100 * sum / requestNum` (the program evaluates it in `float64` and prints two
decimals); no line comes after the sum has reached `requestNum`; and `slowRequestCount` has
no influence on the lines. -/
theorem reportResult_lines (f : Flags) (h : Histogram) (e : Int)
    (hlen : h.spendCounter.length = 2000) (hnn : ∀ c ∈ h.spendCounter, 0 ≤ c)
    (hsum : h.spendCounter.sum ≤ maxInt) :
    ∃ r, reportResult f h e = some r ∧
      r.lines = percentileSpec f.requestNum h.spendCounter ∧
      (r.lines.map Line.latency).Pairwise (· < ·) ∧
      (∀ i, i ∈ r.lines.map Line.latency ↔
        i < 2000 ∧ h.spendCounter.getD i 0 ≠ 0 ∧
          (h.spendCounter.take i).sum < f.requestNum) ∧
      (∀ l ∈ r.lines,
        l.cumulative = (h.spendCounter.take (l.latency + 1)).sum ∧
        l.percent f.requestNum =
          100 * (((h.spendCounter.take (l.latency + 1)).sum : Int) : ℚ) / (f.requestNum : ℚ) ∧
        (h.spendCounter.take l.latency).sum < f.requestNum) ∧
      (∀ i, f.requestNum ≤ (h.spendCounter.take i).sum → i ∉ r.lines.map Line.latency) ∧
      ∀ slow e', (reportResult f { h with slowRequestCount := slow } e').map Report.lines =
        some r.lines := by
  obtain ⟨r, hr, hrl⟩ := reportResult_isSome f h e
  have hlines : r.lines = percentileSpec f.requestNum h.spendCounter := by
    rw [hrl]
    exact percentileLines_eq_spec f.requestNum h hnn hsum
  have hmem : ∀ i, i ∈ r.lines.map Line.latency ↔
      i < 2000 ∧ h.spendCounter.getD i 0 ≠ 0 ∧
        (h.spendCounter.take i).sum < f.requestNum := by
    intro i
    rw [hlines, percentileSpec_latency, List.mem_filter, List.mem_range, hlen,
      decide_eq_true_iff]
  refine ⟨r, hr, hlines, ?_, hmem, ?_, ?_, ?_⟩
  · rw [hlines, percentileSpec_latency]
    exact (List.pairwise_lt_range _).sublist (List.filter_sublist _)
  · intro l hl
    rw [hlines] at hl
    obtain ⟨_, _, h3, h4⟩ := percentileSpec_mem _ _ l hl
    refine ⟨h4, ?_, h3⟩
    unfold Line.percent
    rw [h4, mul_div_assoc]
  · intro i hi hcon
    have := ((hmem i).mp hcon).2.2
    omega
  · intro slow e'
    obtain ⟨r', hr', hrl'⟩ := reportResult_isSome f { h with slowRequestCount := slow } e'
    rw [hr', Option.map_some', hrl', hrl]
    rfl

/-- C8, amended, on a histogram with the buckets 2, 0, 1, 0, 0, ... and one slow
request. -/
theorem reportResult_lines_witness :
    sampleHistogram.spendCounter.length = 2000 ∧
    (∀ c ∈ sampleHistogram.spendCounter, 0 ≤ c) ∧
    sampleHistogram.spendCounter.sum ≤ maxInt ∧
    ∃ r, reportResult ⟨"sadd", 3, 1, "pikatest"⟩ sampleHistogram 0 = some r ∧
      r.lines = percentileSpec 3 sampleHistogram.spendCounter ∧
      (r.lines.map Line.latency).Pairwise (· < ·) ∧
      (∀ i, i ∈ r.lines.map Line.latency ↔
        i < 2000 ∧ sampleHistogram.spendCounter.getD i 0 ≠ 0 ∧
          (sampleHistogram.spendCounter.take i).sum < 3) ∧
      (∀ l ∈ r.lines,
        l.cumulative = (sampleHistogram.spendCounter.take (l.latency + 1)).sum ∧
        l.percent 3 =
          100 * (((sampleHistogram.spendCounter.take (l.latency + 1)).sum : Int) : ℚ) /
            ((3 : Int) : ℚ) ∧
        (sampleHistogram.spendCounter.take l.latency).sum < 3) ∧
      (∀ i, 3 ≤ (sampleHistogram.spendCounter.take i).sum → i ∉ r.lines.map Line.latency) ∧
      ∀ slow e',
        (reportResult ⟨"sadd", 3, 1, "pikatest"⟩
          { sampleHistogram with slowRequestCount := slow } e').map Report.lines =
          some r.lines :=
  have hsum : sampleHistogram.spendCounter.sum ≤ maxInt := by
    rw [sampleHistogram_sum]
    decide
  ⟨sampleHistogram_length, sampleHistogram_nonneg, hsum,
    reportResult_lines ⟨"sadd", 3, 1, "pikatest"⟩ sampleHistogram 0 sampleHistogram_length
      sampleHistogram_nonneg hsum⟩

/-! ## C9: cumulative counts along the report -/

/-- C9 fails as stated: for `requestNum = 2^63 - 1` and the non-negative buckets
`2^63 - 2, 2, 1, 0, 0, ...` the cumulative counts on the three lines `reportResult` prints
are `2^63 - 2`, `-2^63`, `-2^63 + 1`: the second is below the first, and so is its
percentage. -/
theorem reportResult_cumulative_wrap :
    (∀ c ∈ wrapHistogram.spendCounter, 0 ≤ c) ∧ (0 : Int) < 9223372036854775807 ∧
    ∃ r, reportResult ⟨"sadd", 9223372036854775807, 1, "pikatest"⟩ wrapHistogram 0 = some r ∧
      r.lines.map Line.cumulative =
        [9223372036854775806, -9223372036854775808, -9223372036854775807] ∧
      ¬(r.lines.map Line.cumulative).Pairwise (· ≤ ·) ∧
      ¬(r.lines.map (Line.percent 9223372036854775807)).Pairwise (· ≤ ·) := by
  obtain ⟨r, hr, hrl⟩ :=
    reportResult_isSome ⟨"sadd", 9223372036854775807, 1, "pikatest"⟩ wrapHistogram 0
  have hl : r.lines =
      [ { latency := 0, cumulative := 9223372036854775806 },
        { latency := 1, cumulative := -9223372036854775808 },
        { latency := 2, cumulative := -9223372036854775807 } ] := by
    rw [hrl]
    exact wrapHistogram_lines
  refine ⟨wrapHistogram_nonneg, by decide, r, hr, ?_, ?_, ?_⟩
  · rw [hl]
    rfl
  · rw [hl]
    decide
  · rw [hl]
    intro hp
    simp only [List.map_cons, List.map_nil, List.pairwise_cons] at hp
    have h01 := hp.1 _ (List.mem_cons_self _ _)
    unfold Line.percent at h01
    norm_num at h01

/-- C9, amended. For non-negative buckets whose sum is at most the largest `int` and
`requestNum > 0`, the cumulative counts on the lines `reportResult` prints never go down
from one line to a later one, and neither do the percentages `100 * cumulative / requestNum`
as exact rationals; when the buckets sum to exactly `requestNum`, there is a last line, its
cumulative count is `requestNum`, its percentage is exactly 100, and the increments of the
cumulative count from line to line add up to `requestNum`. -/
theorem reportResult_cumulative (f : Flags) (h : Histogram) (e : Int)
    (hnn : ∀ c ∈ h.spendCounter, 0 ≤ c) (hsum : h.spendCounter.sum ≤ maxInt)
    (hpos : 0 < f.requestNum) :
    ∃ r, reportResult f h e = some r ∧
      (r.lines.map Line.cumulative).Pairwise (· ≤ ·) ∧
      (r.lines.map (Line.percent f.requestNum)).Pairwise (· ≤ ·) ∧
      (h.spendCounter.sum = f.requestNum →
        ∃ last, r.lines.getLast? = some last ∧
          last.cumulative = f.requestNum ∧
          last.percent f.requestNum = 100 ∧
          (increments 0 r.lines).sum = f.requestNum) := by
  obtain ⟨r, hr, hrl⟩ := reportResult_isSome f h e
  have hlines : r.lines = percentileLoopExact f.requestNum h.spendCounter 0 0 := by
    rw [hrl]
    exact percentileLines_eq_exact f.requestNum h hnn hsum
  have hsorted := percentileLoopExact_cumulative_sorted f.requestNum h.spendCounter hnn 0 0
  rw [← hlines] at hsorted
  have hRq : (0 : ℚ) < (f.requestNum : ℚ) := by exact_mod_cast hpos
  refine ⟨r, hr, hsorted.imp (fun hab => le_of_lt hab), ?_, ?_⟩
  · rw [List.pairwise_map] at hsorted ⊢
    refine hsorted.imp ?_
    intro a b hab
    unfold Line.percent
    have hq' : (a.cumulative : ℚ) ≤ (b.cumulative : ℚ) := by exact_mod_cast le_of_lt hab
    have := div_le_div_of_nonneg_right hq' (le_of_lt hRq)
    linarith
  · intro hsum'
    obtain ⟨last, hl, hcum⟩ :=
      percentileLoopExact_last f.requestNum h.spendCounter hnn 0 0 hpos
        (by rw [zero_add, hsum'])
    rw [← hlines] at hl
    refine ⟨last, hl, hcum, ?_, ?_⟩
    · unfold Line.percent
      rw [hcum, div_self (ne_of_gt hRq), mul_one]
    · rw [increments_sum, hl]
      simp [hcum]

/-- C9, amended, on the histogram 2, 0, 1, 0, 0, ... with three requests. -/
theorem reportResult_cumulative_witness :
    (∀ c ∈ sampleHistogram.spendCounter, 0 ≤ c) ∧
    sampleHistogram.spendCounter.sum ≤ maxInt ∧ (0 : Int) < 3 ∧
    sampleHistogram.spendCounter.sum = 3 ∧
    ∃ r, reportResult ⟨"sadd", 3, 1, "pikatest"⟩ sampleHistogram 0 = some r ∧
      (r.lines.map Line.cumulative).Pairwise (· ≤ ·) ∧
      (r.lines.map (Line.percent 3)).Pairwise (· ≤ ·) ∧
      (sampleHistogram.spendCounter.sum = 3 →
        ∃ last, r.lines.getLast? = some last ∧
          last.cumulative = 3 ∧
          last.percent 3 = 100 ∧
          (increments 0 r.lines).sum = 3) :=
  have hsum : sampleHistogram.spendCounter.sum ≤ maxInt := by
    rw [sampleHistogram_sum]
    decide
  ⟨sampleHistogram_nonneg, hsum, by decide, sampleHistogram_sum,
    reportResult_cumulative ⟨"sadd", 3, 1, "pikatest"⟩ sampleHistogram 0
      sampleHistogram_nonneg hsum (by decide)⟩

/-! ## C10: member identifiers -/

/-- C10. Both workers build the member for loop variable `i` as the key followed by the
decimal form of `offset + i`; for one key and two different non-negative indices these
strings differ; so in the run `main` starts for `requestNum ≥ 0` and `concurrentCount > 0`
no member is built twice, and the number of different members built is
`concurrentCount * (requestNum / concurrentCount)`. -/
theorem members_distinct (f : Flags) (clock : Int → Int × Int) (hn : 0 ≤ f.requestNum)
    (hc : 0 < f.concurrentCount) :
    (∀ offset (i : Nat),
      (stressSetBody f clock offset i).member = f.key ++ fmtD (offset + i) ∧
      (stressZsetBody f clock offset i).member = f.key ++ fmtD (offset + i)) ∧
    (∀ i j : Int, 0 ≤ i → 0 ≤ j → i ≠ j → f.key ++ fmtD i ≠ f.key ++ fmtD j) ∧
    ∃ ws, mainWorkers f clock = some ws ∧ (runMembers ws).Nodup ∧
      ((runMembers ws).length : Int) =
        f.concurrentCount * Int.tdiv f.requestNum f.concurrentCount ∧
      ((runMembers ws).toFinset.card : Int) =
        f.concurrentCount * Int.tdiv f.requestNum f.concurrentCount := by
  obtain ⟨t1, _⟩ := tdiv_facts f.requestNum f.concurrentCount hn hc
  refine ⟨fun _ _ => ⟨rfl, rfl⟩, ?_, ?_⟩
  · intro i j hi hj hne heq
    exact hne (member_inj f.key i j hi hj heq)
  · have hp : ((Int.tdiv f.requestNum f.concurrentCount).toNat : Int) =
        Int.tdiv f.requestNum f.concurrentCount := Int.toNat_of_nonneg t1
    have hcn : ((f.concurrentCount.toNat : Nat) : Int) = f.concurrentCount :=
      Int.toNat_of_nonneg (le_of_lt hc)
    have hws : mainWorkers f clock =
        some ((List.range f.concurrentCount.toNat).map fun (k : Nat) =>
          stressSet f clock
            ((k : Int) * (((Int.tdiv f.requestNum f.concurrentCount).toNat : Nat) : Int))
            (((Int.tdiv f.requestNum f.concurrentCount).toNat : Nat) : Int)) := by
      rw [hp]
      exact mainWorkers_eq f clock hc
    have hnodup := members_nodup f.key f.concurrentCount.toNat
      (Int.tdiv f.requestNum f.concurrentCount).toNat
    have hlen := members_length f.key f.concurrentCount.toNat
      (Int.tdiv f.requestNum f.concurrentCount).toNat
      (((Int.tdiv f.requestNum f.concurrentCount).toNat : Nat) : Int)
    rw [← runMembers_eq f clock] at hnodup hlen
    have hlen' : ((runMembers ((List.range f.concurrentCount.toNat).map fun (k : Nat) =>
          stressSet f clock
            ((k : Int) * (((Int.tdiv f.requestNum f.concurrentCount).toNat : Nat) : Int))
            (((Int.tdiv f.requestNum f.concurrentCount).toNat : Nat) : Int))).length : Int) =
        f.concurrentCount * Int.tdiv f.requestNum f.concurrentCount := by
      rw [hlen]
      push_cast
      rw [hp, hcn]
    refine ⟨_, hws, hnodup, hlen', ?_⟩
    rw [List.toFinset_card_of_nodup hnodup]
    exact hlen'

/-- C10 for 7 requests on 3 goroutines. -/
theorem members_distinct_witness :
    (0 : Int) ≤ 7 ∧ (0 : Int) < 3 ∧
    (∀ i j : Int, 0 ≤ i → 0 ≤ j → i ≠ j → "pikatest" ++ fmtD i ≠ "pikatest" ++ fmtD j) ∧
    ∃ ws, mainWorkers ⟨"sadd", 7, 3, "pikatest"⟩ (fun _ => (0, 0)) = some ws ∧
      (runMembers ws).Nodup ∧
      ((runMembers ws).length : Int) = 3 * Int.tdiv 7 3 ∧
      ((runMembers ws).toFinset.card : Int) = 3 * Int.tdiv 7 3 :=
  have key := members_distinct ⟨"sadd", 7, 3, "pikatest"⟩ (fun _ => (0, 0)) (by decide)
    (by decide)
  ⟨by decide, by decide, key.2.1, key.2.2⟩

end PikaBenchmark
